import Mathlib

/-!
Shallow embedding of the FileCompression repository (C sources) and proofs
about its codecs, containers and drivers.

Bytes are modelled as `Nat` values in `[0, 256)` inside `List Nat` buffers.
Multi-byte integers written with `fwrite(&v, sizeof(v), 1, f)` are modelled as
little-endian byte lists; the build target is an LP64 platform (the
repository's Makefile uses gcc on a Unix host), so `long` and `size_t` are
8 bytes and `int` is 4 bytes.  Fallible file reads (`fgetc` at EOF, short
`fread`) are modelled with `Option`.
-/

namespace FileCompression

/-- Little-endian byte encoding of `n` on `w` bytes: model of
`fwrite(&n, w, 1, out)` for an unsigned value on a little-endian machine. -/
def leBytes : Nat → Nat → List Nat
  | 0, _ => []
  | w + 1, n => (n % 256) :: leBytes w (n / 256)

/-- Little-endian decoding of a byte list: model of `fread` of an integer. -/
def leDecode : List Nat → Nat
  | [] => 0
  | b :: bs => b % 256 + 256 * leDecode bs

theorem leBytes_length (w n : Nat) : (leBytes w n).length = w := by
  induction w generalizing n with
  | zero => rfl
  | succ w ih => simp [leBytes, ih]

theorem leDecode_leBytes (w n : Nat) (h : n < 256 ^ w) :
    leDecode (leBytes w n) = n := by
  induction w generalizing n with
  | zero => simp at h; simp [h, leBytes, leDecode]
  | succ w ih =>
      have h2 : n / 256 < 256 ^ w := by
        rw [Nat.div_lt_iff_lt_mul (by norm_num)]
        calc n < 256 ^ (w + 1) := h
        _ = 256 ^ w * 256 := by ring
      simp only [leBytes, leDecode, ih _ h2]
      omega

/-- Splitting a buffer into chunks of `k` bytes, fuel-driven worker. -/
def chunksOfGo (k : Nat) : Nat → List Nat → List (List Nat)
  | 0, _ => []
  | _, [] => []
  | fuel + 1, l => l.take k :: chunksOfGo k fuel (l.drop k)

/-- Splitting a buffer into consecutive chunks of at most `k` bytes: model of
a read loop `while ((n = fread(buf, 1, k, f)) > 0)`. -/
def chunksOf (k : Nat) (l : List Nat) : List (List Nat) :=
  chunksOfGo k l.length l

theorem chunksOfGo_nil (k fuel : Nat) : chunksOfGo k fuel [] = [] := by
  cases fuel <;> rfl

theorem chunksOfGo_congr (k : Nat) (hk : 1 ≤ k) :
    ∀ (f1 f2 : Nat) (l : List Nat), l.length ≤ f1 → l.length ≤ f2 →
      chunksOfGo k f1 l = chunksOfGo k f2 l := by
  intro f1
  induction f1 with
  | zero =>
      intro f2 l h1 _
      have : l = [] := List.length_eq_zero.mp (Nat.le_zero.mp h1)
      subst this
      rw [chunksOfGo_nil, chunksOfGo_nil]
  | succ f ih =>
      intro f2 l h1 h2
      cases l with
      | nil => rw [chunksOfGo_nil, chunksOfGo_nil]
      | cons b bs =>
          cases f2 with
          | zero => simp at h2
          | succ g =>
              simp only [chunksOfGo]
              congr 1
              have hd1 : ((b :: bs).drop k).length ≤ f := by
                simp only [List.length_drop, List.length_cons] at *
                omega
              have hd2 : ((b :: bs).drop k).length ≤ g := by
                simp only [List.length_drop, List.length_cons] at *
                omega
              exact ih g _ hd1 hd2

theorem chunksOf_eq_cons (k : Nat) (hk : 1 ≤ k) (l : List Nat) (hl : l ≠ []) :
    chunksOf k l = l.take k :: chunksOf k (l.drop k) := by
  cases l with
  | nil => exact absurd rfl hl
  | cons b bs =>
      show chunksOfGo k (b :: bs).length (b :: bs) = _
      simp only [List.length_cons, chunksOfGo]
      congr 1
      apply chunksOfGo_congr k hk
      · simp only [List.length_drop, List.length_cons]; omega
      · exact le_refl _

theorem chunksOf_nil (k : Nat) : chunksOf k [] = [] := rfl

theorem chunksOf_cons (k : Nat) (hk : 1 ≤ k) (c l : List Nat)
    (hc : c.length = k) : chunksOf k (c ++ l) = c :: chunksOf k l := by
  have hne : c ++ l ≠ [] := by
    intro h
    have : c = [] := by
      cases c with
      | nil => rfl
      | cons x xs => simp at h
    rw [this] at hc; simp at hc; omega
  rw [chunksOf_eq_cons k hk _ hne]
  have htake : (c ++ l).take k = c := by
    rw [List.take_append_eq_append_take]
    simp [hc]
  have hdrop : (c ++ l).drop k = l := by
    rw [List.drop_append_eq_append_drop]
    simp [hc]
  rw [htake, hdrop]

theorem chunksOf_small (k : Nat) (hk : 1 ≤ k) (l : List Nat)
    (h1 : l ≠ []) (h2 : l.length ≤ k) : chunksOf k l = [l] := by
  rw [chunksOf_eq_cons k hk l h1, List.take_of_length_le h2,
      List.drop_eq_nil_of_le h2, chunksOf_nil]

theorem join_chunksOf_bounded (k : Nat) (hk : 1 ≤ k) :
    ∀ (n : Nat) (l : List Nat), l.length ≤ n →
      (chunksOf k l).flatten = l := by
  intro n
  induction n with
  | zero =>
      intro l h
      have : l = [] := List.length_eq_zero.mp (Nat.le_zero.mp h)
      subst this; rfl
  | succ m ih =>
      intro l h
      rcases List.eq_nil_or_concat l with rfl | _
      · rfl
      · have hne : l ≠ [] := by
          rename_i hcon
          obtain ⟨xs, x, rfl⟩ := hcon
          simp
        rw [chunksOf_eq_cons k hk l hne]
        simp only [List.flatten_cons]
        rw [ih (l.drop k) (by simp only [List.length_drop]; omega)]
        exact List.take_append_drop k l

theorem join_chunksOf (k : Nat) (hk : 1 ≤ k) (l : List Nat) :
    (chunksOf k l).flatten = l :=
  join_chunksOf_bounded k hk l.length l (le_refl _)

theorem chunksOf_length_le (k : Nat) (l c : List Nat) (hc : c ∈ chunksOf k l) :
    c.length ≤ k := by
  unfold chunksOf at hc
  generalize hfuel : l.length = fuel at hc
  clear hfuel
  induction fuel generalizing l with
  | zero => simp [chunksOfGo] at hc
  | succ f ih =>
      cases l with
      | nil => simp [chunksOfGo] at hc
      | cons b bs =>
          simp only [chunksOfGo, List.mem_cons] at hc
          rcases hc with h | h
          · subst h; simp [List.length_take]
          · exact ih _ h

theorem chunksOf_ne_nil (k : Nat) (hk : 1 ≤ k) (l c : List Nat)
    (hc : c ∈ chunksOf k l) : c ≠ [] := by
  unfold chunksOf at hc
  generalize hfuel : l.length = fuel at hc
  clear hfuel
  induction fuel generalizing l with
  | zero => simp [chunksOfGo] at hc
  | succ f ih =>
      cases l with
      | nil => simp [chunksOfGo] at hc
      | cons b bs =>
          simp only [chunksOfGo, List.mem_cons] at hc
          rcases hc with h | h
          · subst h
            cases k with
            | zero => omega
            | succ k0 => simp
          · exact ih _ h

/-!
Run-length codec, from `src/rle.c`.  `compress_rle` writes the input size as a
`long` (8 bytes, little-endian) and then `(count, value)` run pairs with
`count ∈ [1, 255]`; `decompress_rle` reads the size and replays the runs until
exactly that many bytes have been produced.
-/

/-- Run emission loop of `compress_rle` (`src/rle.c` lines 38-62): walk the
remaining bytes keeping the current run `(cur, count)`; extend the run while
the next byte matches and `count < 255`, otherwise flush `(count, cur)` and
start a new run; flush the final run at the end. -/
def rleRuns : List Nat → Nat → Nat → List Nat
  | [], cur, count => [count, cur]
  | b :: rest, cur, count =>
      if b = cur ∧ count < 255 then rleRuns rest cur (count + 1)
      else count :: cur :: rleRuns rest b 1

/-- Model of `compress_rle` on the input file's bytes: 8-byte little-endian
`file_size` header (a `long` on LP64) followed by the run pairs. -/
def compress_rle (data : List Nat) : List Nat :=
  leBytes 8 data.length ++
    match data with
    | [] => []
    | b :: rest => rleRuns rest b 1

/-- Decompression loop of `decompress_rle` (`src/rle.c` lines 89-100): while
fewer than `remaining` bytes are written, read a `(count, value)` pair and
emit `min count remaining` copies.  A read past the end of the stream
(`fgetc` at EOF) is modelled as failure. -/
def rleDecodeLoop : List Nat → Nat → Option (List Nat)
  | _, 0 => some []
  | [], _ + 1 => none
  | [_], _ + 1 => none
  | count :: b :: rest, rem + 1 =>
      let k := min count (rem + 1)
      (List.replicate k b ++ ·) <$> rleDecodeLoop rest (rem + 1 - k)

/-- Model of `decompress_rle`: read the 8-byte size header, then replay runs
until `file_size` bytes have been produced. -/
def decompress_rle (input : List Nat) : Option (List Nat) :=
  if input.length < 8 then none
  else rleDecodeLoop (input.drop 8) (leDecode (input.take 8))

/-- C5.  Compressing `"AAAABBBB"` with RLE produces exactly the 12 bytes
`08 00 00 00 00 00 00 00 04 41 04 42` (little-endian `original_size = 8`,
run `(4, 'A')`, run `(4, 'B')`), and decompressing that output restores
`"AAAABBBB"`. -/
theorem rle_aaaabbbb_roundtrip :
    compress_rle [65, 65, 65, 65, 66, 66, 66, 66] =
      [8, 0, 0, 0, 0, 0, 0, 0, 4, 65, 4, 66] ∧
    decompress_rle [8, 0, 0, 0, 0, 0, 0, 0, 4, 65, 4, 66] =
      some [65, 65, 65, 65, 66, 66, 66, 66] := by
  constructor <;> rfl

/-!
Encryption filter, from `src/unnamed/part_002` (`encryption.c`).
`encrypt_buffer` XORs each buffer byte with `key[i % key_length]`;
`encrypt_file` writes the 9-byte ASCII header `"ENCRYPTED"` and then processes
the input through a 4096-byte buffer, calling `encrypt_buffer` on each chunk —
so the key cycle restarts at every 4096-byte chunk boundary.
`decrypt_file` verifies and strips the header and applies the same transform.
-/

/-- XOR a buffer with the key starting at cycle position `i`:
`buffer[j] ^= key[(i + j) % key_length]`. -/
def xorFrom (key : List Nat) (i : Nat) : List Nat → List Nat
  | [] => []
  | b :: rest => (b ^^^ key.getD (i % key.length) 0) :: xorFrom key (i + 1) rest

/-- Model of `encrypt_buffer` (lines 15-26): on an empty key the C function
returns an error and leaves the buffer unchanged; otherwise it XORs each byte
with the cycled key starting at index 0. -/
def encrypt_buffer (key buf : List Nat) : List Nat :=
  if key.length = 0 then buf else xorFrom key 0 buf

/-- Model of `decrypt_buffer` (lines 29-31): XOR is its own inverse, the C
function just calls `encrypt_buffer`. -/
def decrypt_buffer (key buf : List Nat) : List Nat :=
  encrypt_buffer key buf

/-- ASCII bytes of the fixed header `"ENCRYPTED"`. -/
def encryptedHeader : List Nat := [69, 78, 67, 82, 89, 80, 84, 69, 68]

/-- Model of `encrypt_file` (lines 34-71): write the header, then encrypt the
input in 4096-byte chunks, restarting the key cycle on each chunk. -/
def encrypt_file (key data : List Nat) : List Nat :=
  encryptedHeader ++ ((chunksOf 4096 data).map (encrypt_buffer key)).flatten

/-- Model of `decrypt_file` (lines 74-116): read 9 bytes and compare with
`"ENCRYPTED"` (failure if the file is shorter or the header differs), then
decrypt the rest in 4096-byte chunks. -/
def decrypt_file (key input : List Nat) : Option (List Nat) :=
  if 9 ≤ input.length ∧ input.take 9 = encryptedHeader then
    some (((chunksOf 4096 (input.drop 9)).map (decrypt_buffer key)).flatten)
  else none

theorem xorFrom_length (key : List Nat) (i : Nat) (l : List Nat) :
    (xorFrom key i l).length = l.length := by
  induction l generalizing i with
  | nil => rfl
  | cons b rest ih => simp [xorFrom, ih]

theorem xorFrom_xorFrom (key : List Nat) (i : Nat) (l : List Nat) :
    xorFrom key i (xorFrom key i l) = l := by
  induction l generalizing i with
  | nil => rfl
  | cons b rest ih =>
      simp only [xorFrom, ih]
      congr 1
      rw [Nat.xor_assoc, Nat.xor_self, Nat.xor_zero]

theorem xorFrom_append (key : List Nat) (i : Nat) (l1 l2 : List Nat) :
    xorFrom key i (l1 ++ l2) = xorFrom key i l1 ++ xorFrom key (i + l1.length) l2 := by
  induction l1 generalizing i with
  | nil => simp [xorFrom]
  | cons b rest ih =>
      show (b ^^^ key.getD (i % key.length) 0) :: xorFrom key (i + 1) (rest ++ l2) =
        ((b ^^^ key.getD (i % key.length) 0) :: xorFrom key (i + 1) rest) ++
          xorFrom key (i + (rest.length + 1)) l2
      rw [List.cons_append, ih (i + 1)]
      have he : i + 1 + rest.length = i + (rest.length + 1) := by omega
      rw [he]

theorem encrypt_buffer_length (key l : List Nat) :
    (encrypt_buffer key l).length = l.length := by
  unfold encrypt_buffer
  split
  · rfl
  · exact xorFrom_length key 0 l

theorem decrypt_encrypt_buffer (key l : List Nat) :
    decrypt_buffer key (encrypt_buffer key l) = l := by
  unfold decrypt_buffer encrypt_buffer
  split
  · rfl
  · exact xorFrom_xorFrom key 0 l

theorem chunksOf_map_length_preserving (k : Nat) (hk : 1 ≤ k)
    (f : List Nat → List Nat) (hf : ∀ c, (f c).length = c.length) :
    ∀ (n : Nat) (l : List Nat), l.length ≤ n →
      chunksOf k ((chunksOf k l).map f).flatten = (chunksOf k l).map f := by
  intro n
  induction n with
  | zero =>
      intro l h
      have : l = [] := List.length_eq_zero.mp (Nat.le_zero.mp h)
      subst this; rfl
  | succ m ih =>
      intro l h
      cases l with
      | nil => rfl
      | cons b bs =>
          by_cases hsmall : (b :: bs).length ≤ k
          · rw [chunksOf_small k hk _ (by simp) hsmall]
            simp only [List.map_cons, List.map_nil, List.flatten_cons,
              List.flatten_nil, List.append_nil]
            have hne : f (b :: bs) ≠ [] := by
              intro hfe
              have hl2 := hf (b :: bs)
              rw [hfe] at hl2
              simp at hl2
            have hle : (f (b :: bs)).length ≤ k := by
              rw [hf]; exact hsmall
            rw [chunksOf_small k hk _ hne hle]
          · rw [chunksOf_eq_cons k hk (b :: bs) (by simp)]
            simp only [List.map_cons, List.flatten_cons]
            have htk : ((b :: bs).take k).length = k := by
              rw [List.length_take]; omega
            rw [chunksOf_cons k hk _ _ (by rw [hf]; exact htk)]
            congr 1
            exact ih ((b :: bs).drop k) (by simp only [List.length_drop]; simp at h ⊢; omega)

/-- C6 (amended).  For every byte sequence `X` and key of length at least 1,
decrypting the encryption of `X` with the same key yields `X`: encryption
writes the `"ENCRYPTED"` header followed by `X` XORed with the key (the key
cycle restarting at each 4096-byte processing chunk), and decryption verifies
and strips the header and applies the same XOR, which is its own inverse. -/
theorem decrypt_encrypt_file (key data : List Nat) (_hk : key ≠ []) :
    decrypt_file key (encrypt_file key data) = some data := by
  unfold decrypt_file encrypt_file
  have hhl : encryptedHeader.length = 9 := rfl
  have htake : (encryptedHeader ++
      ((chunksOf 4096 data).map (encrypt_buffer key)).flatten).take 9 =
      encryptedHeader := by
    rw [List.take_append_eq_append_take, hhl]
    simp [hhl]
  have hdrop : (encryptedHeader ++
      ((chunksOf 4096 data).map (encrypt_buffer key)).flatten).drop 9 =
      ((chunksOf 4096 data).map (encrypt_buffer key)).flatten := by
    rw [List.drop_append_eq_append_drop, hhl]
    simp [hhl]
  rw [if_pos ⟨by simp [hhl], htake⟩, hdrop]
  rw [chunksOf_map_length_preserving 4096 (by norm_num) _
      (encrypt_buffer_length key) _ data (le_refl _)]
  rw [List.map_map]
  have : (decrypt_buffer key ∘ encrypt_buffer key) = id := by
    funext l
    exact decrypt_encrypt_buffer key l
  rw [this, List.map_id, join_chunksOf 4096 (by norm_num) data]

/-- Witness for `decrypt_encrypt_file` at a concrete input and key. -/
theorem decrypt_encrypt_file_witness :
    decrypt_file [7] (encrypt_file [7] [1, 2, 3]) = some [1, 2, 3] :=
  decrypt_encrypt_file [7] [1, 2, 3] (by decide)

/-- Encryption layout asserted by the claim: header followed by the whole
payload XORed with the key cycled modulo its length (no restart).  This
definition follows the claim's words, for comparison with `encrypt_file`. -/
def claimedEncryptLayout (key data : List Nat) : List Nat :=
  encryptedHeader ++ xorFrom key 0 data

/-- C6 counterexample.  For a 4097-byte input and a key of length 3 the
encryption output differs from the claimed straight key cycling: byte 4096 of
the payload is XORed with `key[0]` (the cycle restarts at the second
4096-byte chunk) instead of `key[4096 % 3] = key[1]`. -/
theorem encrypt_file_not_straight_cycling :
    encrypt_file [1, 2, 3] (List.replicate 4097 0) ≠
      claimedEncryptLayout [1, 2, 3] (List.replicate 4097 0) := by
  have hsplit : List.replicate 4097 (0 : Nat) =
      List.replicate 4096 0 ++ [0] := by
    rw [← List.replicate_succ']
  have hchunks : chunksOf 4096 (List.replicate 4096 (0 : Nat) ++ [0]) =
      [List.replicate 4096 0, [0]] := by
    rw [chunksOf_cons 4096 (by norm_num) _ _ (List.length_replicate 4096 0),
        chunksOf_small 4096 (by norm_num) [0] (by simp) (by simp)]
  have henc1 : encrypt_buffer [1, 2, 3] [0] = [1] := by decide
  have henc2 : xorFrom [1, 2, 3] 4096 [0] = [2] := by
    show (0 ^^^ ([1, 2, 3].getD (4096 % 3) 0)) :: [] = [2]
    norm_num
  unfold encrypt_file claimedEncryptLayout
  rw [hsplit, hchunks, xorFrom_append]
  simp only [List.map_cons, List.map_nil, List.flatten_cons, List.flatten_nil,
    List.append_nil, henc1, List.length_replicate, Nat.zero_add, henc2]
  intro h
  have h2 := List.append_cancel_left h
  have h3 := List.append_cancel_left h2
  simp at h3

/-!
LZ77 codec, from `src/unnamed/part_004` (`lz77.c`) and `src/lz77.h`.
Parameters `(WINDOW_SIZE, LOOKAHEAD_SIZE, MIN_MATCH)` are globals set from the
optimization presets in `lz77.h`.
-/

/-- LZ77 runtime parameters (the globals `WINDOW_SIZE`, `LOOKAHEAD_SIZE`,
`MIN_MATCH`). -/
structure LZ77Params where
  window : Nat
  lookahead : Nat
  minMatch : Nat
deriving DecidableEq

/-- Default preset (`DEFAULT_WINDOW_SIZE` 4096, `DEFAULT_LOOKAHEAD_SIZE` 16,
`DEFAULT_MIN_MATCH` 3). -/
def lz77Default : LZ77Params := ⟨4096, 16, 3⟩

/-- Speed preset (`SPEED_*`: 1024, 8, 4). -/
def lz77Speed : LZ77Params := ⟨1024, 8, 4⟩

/-- Size preset (`SIZE_*`: 8192, 32, 2). -/
def lz77Size : LZ77Params := ⟨8192, 32, 2⟩

/-- Inner comparison loop of `find_longest_match` (lines 73-78): count how
many of the first `bound` bytes starting at `i` equal the bytes starting at
`pos`, stopping at the first mismatch. -/
def matchLength (data : List Nat) (i pos : Nat) : Nat → Nat
  | 0 => 0
  | bound + 1 =>
      if data.getD i 0 = data.getD pos 0 then
        matchLength data (i + 1) (pos + 1) bound + 1
      else 0

/-- Start of the search window: `(pos <= WINDOW_SIZE) ? 0 : pos - WINDOW_SIZE`
(line 45). -/
def windowStart (p : LZ77Params) (pos : Nat) : Nat :=
  if pos ≤ p.window then 0 else pos - p.window

/-- End of the lookahead: `min (pos + LOOKAHEAD_SIZE) data_size` (lines 46-49). -/
def lookaheadEnd (p : LZ77Params) (data : List Nat) (pos : Nat) : Nat :=
  min (pos + p.lookahead) data.length

/-- Window scan loop of `find_longest_match` (lines 63-92): try each window
position `i` in ascending order; skip when the first byte differs; update the
best `(offset, length)` only when the new length is strictly greater
(`current_match_length > *match_length`), capping the stored length at 255 and
breaking out of the loop when the raw length reaches 255. -/
def flmLoop (p : LZ77Params) (data : List Nat) (pos : Nat) :
    List Nat → Nat × Nat → Nat × Nat
  | [], best => best
  | i :: rest, best =>
      if data.getD i 0 ≠ data.getD pos 0 then flmLoop p data pos rest best
      else if p.minMatch ≤ matchLength data i pos (lookaheadEnd p data pos - pos) ∧
          best.2 < matchLength data i pos (lookaheadEnd p data pos - pos) then
        if 255 ≤ matchLength data i pos (lookaheadEnd p data pos - pos) then
          (pos - i, 255)
        else flmLoop p data pos rest
          (pos - i, matchLength data i pos (lookaheadEnd p data pos - pos))
      else flmLoop p data pos rest best

/-- Model of `find_longest_match` (lines 43-93): `(0, 0)` when fewer than
`MIN_MATCH` bytes remain, otherwise the scan over the window
`[windowStart, pos)`. -/
def find_longest_match (p : LZ77Params) (data : List Nat) (pos : Nat) :
    Nat × Nat :=
  if data.length < pos + p.minMatch then (0, 0)
  else flmLoop p data pos
    (List.range' (windowStart p pos) (pos - windowStart p pos)) (0, 0)

/-- An LZ77 output token: a literal byte or a `(offset, length)` match. -/
inductive LZToken where
  | lit (b : Nat)
  | mtch (off len : Nat)
deriving DecidableEq

/-- Compression loop of `compress_lz77_buffer` (lines 107-134) as a trace of
`(input_position, token)` pairs: at each position run `find_longest_match`;
emit a match token and advance by its length when the length reaches
`MIN_MATCH`, otherwise emit a literal and advance by one.  The fuel argument
only forces termination; one unit is spent per emitted token, and
`data.length` units suffice for the presets (every token advances the
position). -/
def lz77TokensGo (p : LZ77Params) (data : List Nat) :
    Nat → Nat → List (Nat × LZToken)
  | 0, _ => []
  | fuel + 1, pos =>
      if pos < data.length then
        if p.minMatch ≤ (find_longest_match p data pos).2 then
          (pos, .mtch (find_longest_match p data pos).1
              (find_longest_match p data pos).2) ::
            lz77TokensGo p data fuel (pos + (find_longest_match p data pos).2)
        else
          (pos, .lit (data.getD pos 0)) :: lz77TokensGo p data fuel (pos + 1)
      else []

/-- Token trace of `compress_lz77_buffer` over a whole input. -/
def lz77Tokens (p : LZ77Params) (data : List Nat) : List (Nat × LZToken) :=
  lz77TokensGo p data data.length 0

/-- Serialized bytes of one token (lines 120-132): flag byte `0` + literal, or
flag byte `1` + big-endian 16-bit offset + length byte. -/
def lz77TokenBytes : LZToken → List Nat
  | .lit b => [0, b]
  | .mtch off len => [1, off / 256 % 256, off % 256, len]

/-- Emission loop with the output-capacity check of line 115
(`out_pos + 4 > *output_size` fails the whole call). -/
def lz77EmitGo (outSize : Nat) : List LZToken → Nat → Option (List Nat)
  | [], _ => some []
  | t :: ts, outPos =>
      if outSize < outPos + 4 then none
      else (lz77TokenBytes t ++ ·) <$>
        lz77EmitGo outSize ts (outPos + (lz77TokenBytes t).length)

/-- Model of `compress_lz77_buffer` (lines 96-138): `none` models the C
return value 1 (empty input or output buffer too small), `some bytes` models
success with the serialized token stream. -/
def compress_lz77_buffer (p : LZ77Params) (data : List Nat) (outSize : Nat) :
    Option (List Nat) :=
  if data = [] then none
  else lz77EmitGo outSize ((lz77Tokens p data).map Prod.snd) 0

/-- Concrete input exhibiting an LZ77 tie: at position 8 the three bytes
`1, 2, 3` occur both at window position 0 (offset 8) and window position 4
(offset 4). -/
def lz77TieData : List Nat := [1, 2, 3, 7, 1, 2, 3, 8, 1, 2, 3]

/-- C3 counterexample.  With the default preset the compressor emits the
match `(offset 8, length 3)` at position 8 of `lz77TieData` although a match
of the same longest length 3 exists at the smaller offset 4 — refuting the
claim that ties are broken toward the smallest offset (the code's strict
`>` comparison keeps the first, i.e. farthest, match found). -/
theorem lz77_tie_larger_offset :
    lz77Tokens lz77Default lz77TieData =
      [(0, .lit 1), (1, .lit 2), (2, .lit 3), (3, .lit 7),
       (4, .mtch 4 3), (7, .lit 8), (8, .mtch 8 3)] ∧
    matchLength lz77TieData 4 8
      (lookaheadEnd lz77Default lz77TieData 8 - 8) = 3 ∧
    (4 : Nat) < 8 := by
  refine ⟨?_, ?_, ?_⟩ <;> decide

/-- Match length as stored by `find_longest_match`: the raw compare-loop
length capped at `UINT8_MAX` (lines 84-90). -/
def cappedMatchLength (p : LZ77Params) (data : List Nat) (pos i : Nat) : Nat :=
  if 255 ≤ matchLength data i pos (lookaheadEnd p data pos - pos) then 255
  else matchLength data i pos (lookaheadEnd p data pos - pos)

theorem flmLoop_cons (p : LZ77Params) (data : List Nat) (pos i : Nat)
    (rest : List Nat) (best : Nat × Nat) :
    flmLoop p data pos (i :: rest) best =
      if data.getD i 0 ≠ data.getD pos 0 then flmLoop p data pos rest best
      else if p.minMatch ≤ matchLength data i pos (lookaheadEnd p data pos - pos) ∧
          best.2 < matchLength data i pos (lookaheadEnd p data pos - pos) then
        if 255 ≤ matchLength data i pos (lookaheadEnd p data pos - pos) then
          (pos - i, 255)
        else flmLoop p data pos rest
          (pos - i, matchLength data i pos (lookaheadEnd p data pos - pos))
      else flmLoop p data pos rest best := rfl

theorem matchLength_zero_of_ne (data : List Nat) (i pos bound : Nat)
    (h : data.getD i 0 ≠ data.getD pos 0) : matchLength data i pos bound = 0 := by
  cases bound with
  | zero => rfl
  | succ b =>
      show (if data.getD i 0 = data.getD pos 0
        then matchLength data (i + 1) (pos + 1) b + 1 else 0) = 0
      rw [if_neg h]

theorem flmLoop_len_mono (p : LZ77Params) (data : List Nat) (pos : Nat) :
    ∀ (idxs : List Nat) (best : Nat × Nat), best.2 < 255 →
      best.2 ≤ (flmLoop p data pos idxs best).2 := by
  intro idxs
  induction idxs with
  | nil => intro best _; exact le_refl _
  | cons i rest ih =>
      intro best hb
      rw [flmLoop_cons]
      by_cases hne : data.getD i 0 ≠ data.getD pos 0
      · rw [if_pos hne]; exact ih best hb
      · rw [if_neg hne]
        by_cases hg : p.minMatch ≤ matchLength data i pos (lookaheadEnd p data pos - pos) ∧
            best.2 < matchLength data i pos (lookaheadEnd p data pos - pos)
        · rw [if_pos hg]
          by_cases h255 : 255 ≤ matchLength data i pos (lookaheadEnd p data pos - pos)
          · rw [if_pos h255]
            exact le_of_lt hb
          · rw [if_neg h255]
            have hb2 : ((pos - i, matchLength data i pos
                (lookaheadEnd p data pos - pos)) : Nat × Nat).2 < 255 :=
              Nat.lt_of_not_le h255
            have h2 := ih (pos - i, matchLength data i pos
              (lookaheadEnd p data pos - pos)) hb2
            have h3 : matchLength data i pos (lookaheadEnd p data pos - pos) ≤
                (flmLoop p data pos rest (pos - i, matchLength data i pos
                  (lookaheadEnd p data pos - pos))).2 := h2
            exact le_trans (le_of_lt hg.2) h3
        · rw [if_neg hg]; exact ih best hb

theorem flmLoop_stable (p : LZ77Params) (data : List Nat) (pos : Nat) :
    ∀ (idxs : List Nat) (best : Nat × Nat), best.2 < 255 →
      (flmLoop p data pos idxs best).2 = best.2 →
      flmLoop p data pos idxs best = best := by
  intro idxs
  induction idxs with
  | nil => intro best _ _; rfl
  | cons i rest ih =>
      intro best hb heq
      rw [flmLoop_cons] at heq ⊢
      by_cases hne : data.getD i 0 ≠ data.getD pos 0
      · rw [if_pos hne] at heq ⊢; exact ih best hb heq
      · rw [if_neg hne] at heq ⊢
        by_cases hg : p.minMatch ≤ matchLength data i pos (lookaheadEnd p data pos - pos) ∧
            best.2 < matchLength data i pos (lookaheadEnd p data pos - pos)
        · rw [if_pos hg] at heq ⊢
          by_cases h255 : 255 ≤ matchLength data i pos (lookaheadEnd p data pos - pos)
          · rw [if_pos h255] at heq
            exfalso
            have h2 : (255 : Nat) = best.2 := heq
            omega
          · rw [if_neg h255] at heq
            exfalso
            have hb2 : ((pos - i, matchLength data i pos
                (lookaheadEnd p data pos - pos)) : Nat × Nat).2 < 255 :=
              Nat.lt_of_not_le h255
            have hmono : matchLength data i pos (lookaheadEnd p data pos - pos) ≤
                (flmLoop p data pos rest (pos - i, matchLength data i pos
                  (lookaheadEnd p data pos - pos))).2 :=
              flmLoop_len_mono p data pos rest _ hb2
            rw [heq] at hmono
            exact absurd hmono (Nat.not_le_of_lt hg.2)
        · rw [if_neg hg] at heq ⊢
          exact ih best hb heq

theorem flmLoop_tiebreak (p : LZ77Params) (data : List Nat) (pos : Nat)
    (hmin : 1 ≤ p.minMatch) :
    ∀ (n s : Nat) (best : Nat × Nat), best.2 < 255 →
      (p.minMatch ≤ best.2 → ∀ j, s ≤ j → j < s + n → pos - j ≤ best.1) →
      p.minMatch ≤ (flmLoop p data pos (List.range' s n) best).2 →
      ∀ j, s ≤ j → j < s + n →
        cappedMatchLength p data pos j =
          (flmLoop p data pos (List.range' s n) best).2 →
        pos - j ≤ (flmLoop p data pos (List.range' s n) best).1 := by
  intro n
  induction n with
  | zero => intro s best _ _ _ j hsj hjn; omega
  | succ m ih =>
      intro s best hb255 hbest hr j hsj hjn hcap
      rw [List.range'_succ, flmLoop_cons] at hr hcap ⊢
      by_cases hne : data.getD s 0 ≠ data.getD pos 0
      · rw [if_pos hne] at hr hcap ⊢
        rcases Nat.eq_or_lt_of_le hsj with rfl | hlt
        · exfalso
          have h0 : cappedMatchLength p data pos s = 0 := by
            unfold cappedMatchLength
            rw [matchLength_zero_of_ne data s pos _ hne]
            simp
          rw [h0] at hcap
          omega
        · exact ih (s + 1) best hb255
            (fun hmb k hk1 hk2 => hbest hmb k (by omega) (by omega))
            hr j hlt (by omega) hcap
      · rw [if_neg hne] at hr hcap ⊢
        by_cases hg : p.minMatch ≤ matchLength data s pos (lookaheadEnd p data pos - pos) ∧
            best.2 < matchLength data s pos (lookaheadEnd p data pos - pos)
        · rw [if_pos hg] at hr hcap ⊢
          by_cases h255 : 255 ≤ matchLength data s pos (lookaheadEnd p data pos - pos)
          · rw [if_pos h255] at hr hcap ⊢
            show pos - j ≤ pos - s
            omega
          · rw [if_neg h255] at hr hcap ⊢
            have hb2 : ((pos - s, matchLength data s pos
                (lookaheadEnd p data pos - pos)) : Nat × Nat).2 < 255 :=
              Nat.lt_of_not_le h255
            rcases Nat.eq_or_lt_of_le hsj with rfl | hlt
            · have hcs : cappedMatchLength p data pos s =
                  matchLength data s pos (lookaheadEnd p data pos - pos) := by
                unfold cappedMatchLength
                rw [if_neg h255]
              have hmono : matchLength data s pos (lookaheadEnd p data pos - pos) ≤
                  (flmLoop p data pos (List.range' (s + 1) m)
                    (pos - s, matchLength data s pos
                      (lookaheadEnd p data pos - pos))).2 :=
                flmLoop_len_mono p data pos (List.range' (s + 1) m) _ hb2
              rcases eq_or_lt_of_le hmono with heq | hlt2
              · have hst := flmLoop_stable p data pos (List.range' (s + 1) m)
                  (pos - s, matchLength data s pos
                    (lookaheadEnd p data pos - pos)) hb2 heq.symm
                rw [hst]
              · rw [hcs] at hcap
                omega
            · exact ih (s + 1) (pos - s, matchLength data s pos
                  (lookaheadEnd p data pos - pos)) hb2
                (fun _ k hk1 hk2 => by
                  show pos - k ≤ pos - s
                  omega)
                hr j hlt (by omega) hcap
        · rw [if_neg hg] at hr hcap ⊢
          rcases Nat.eq_or_lt_of_le hsj with rfl | hlt
          · have hcap_le : cappedMatchLength p data pos s ≤
                matchLength data s pos (lookaheadEnd p data pos - pos) := by
              unfold cappedMatchLength
              split <;> omega
            by_cases hshort : p.minMatch ≤ matchLength data s pos
                (lookaheadEnd p data pos - pos)
            · have hml : matchLength data s pos (lookaheadEnd p data pos - pos) ≤
                  best.2 := by
                rcases Classical.not_and_iff_or_not_not.mp hg with h1 | h2
                · exact absurd hshort h1
                · omega
              have hmono := flmLoop_len_mono p data pos (List.range' (s + 1) m)
                best hb255
              have heq2 : (flmLoop p data pos (List.range' (s + 1) m) best).2 =
                  best.2 := by omega
              have hst := flmLoop_stable p data pos (List.range' (s + 1) m)
                best hb255 heq2
              rw [hst] at hr ⊢
              exact hbest hr s (le_refl _) (by omega)
            · exfalso
              omega
          · exact ih (s + 1) best hb255
              (fun hmb k hk1 hk2 => hbest hmb k (by omega) (by omega))
              hr j hlt (by omega) hcap

/-- Offsets produced by the window scan stay in `(0, pos - windowStart]` once
a match of positive length is recorded. -/
theorem flmLoop_offset_bounds (p : LZ77Params) (data : List Nat) (pos : Nat) :
    ∀ (idxs : List Nat) (best : Nat × Nat),
      (∀ i ∈ idxs, windowStart p pos ≤ i ∧ i < pos) →
      (best.2 = 0 ∨ (0 < best.1 ∧ best.1 ≤ pos - windowStart p pos)) →
      (flmLoop p data pos idxs best).2 = 0 ∨
        (0 < (flmLoop p data pos idxs best).1 ∧
          (flmLoop p data pos idxs best).1 ≤ pos - windowStart p pos) := by
  intro idxs
  induction idxs with
  | nil => intro best _ hq; exact hq
  | cons i rest ih =>
      intro best hidx hq
      rw [flmLoop_cons]
      have hi := hidx i (List.mem_cons_self i rest)
      have hrest := fun j hj => hidx j (List.mem_cons_of_mem i hj)
      by_cases hne : data.getD i 0 ≠ data.getD pos 0
      · rw [if_pos hne]; exact ih best hrest hq
      · rw [if_neg hne]
        by_cases hg : p.minMatch ≤ matchLength data i pos (lookaheadEnd p data pos - pos) ∧
            best.2 < matchLength data i pos (lookaheadEnd p data pos - pos)
        · rw [if_pos hg]
          by_cases h255 : 255 ≤ matchLength data i pos (lookaheadEnd p data pos - pos)
          · rw [if_pos h255]
            right
            refine ⟨by show 0 < pos - i; omega, ?_⟩
            show pos - i ≤ pos - windowStart p pos
            omega
          · rw [if_neg h255]
            apply ih _ hrest
            right
            refine ⟨by show 0 < pos - i; omega, ?_⟩
            show pos - i ≤ pos - windowStart p pos
            omega
        · rw [if_neg hg]; exact ih best hrest hq

/-- A match token in the compression trace comes from `find_longest_match` at
its position, with the emission guard `MIN_MATCH ≤ length`. -/
theorem lz77Tokens_match_src (p : LZ77Params) (data : List Nat) :
    ∀ (fuel pos0 pos off len : Nat),
      (pos, LZToken.mtch off len) ∈ lz77TokensGo p data fuel pos0 →
      find_longest_match p data pos = (off, len) ∧ p.minMatch ≤ len := by
  intro fuel
  induction fuel with
  | zero => intro pos0 pos off len h; simp [lz77TokensGo] at h
  | succ f ih =>
      intro pos0 pos off len h
      unfold lz77TokensGo at h
      split at h
      · split at h
        · rename_i hguard
          rcases List.mem_cons.mp h with heq | hmem
          · simp only [Prod.mk.injEq, LZToken.mtch.injEq] at heq
            obtain ⟨h1, h2, h3⟩ := heq
            subst h1
            constructor
            · rw [h2, h3]
            · rw [h3]; exact hguard
          · exact ih _ pos off len hmem
        · rcases List.mem_cons.mp h with heq | hmem
          · exact absurd (congrArg Prod.snd heq) (by simp)
          · exact ih _ pos off len hmem
      · simp at h

/-- C9.  For every input and every parameter preset, every match token
emitted by LZ77 compression satisfies `length ≥ MIN_MATCH` and
`0 < offset ≤ position`, and the offset never exceeds `WINDOW_SIZE`. -/
theorem lz77_match_token_invariants (p : LZ77Params) (data : List Nat)
    (pos off len : Nat)
    (hp : p = lz77Speed ∨ p = lz77Default ∨ p = lz77Size)
    (hmem : (pos, LZToken.mtch off len) ∈ lz77Tokens p data) :
    p.minMatch ≤ len ∧ 0 < off ∧ off ≤ pos ∧ off ≤ p.window := by
  have hmin : 1 ≤ p.minMatch := by
    rcases hp with rfl | rfl | rfl <;> decide
  obtain ⟨hfl, hlen⟩ := lz77Tokens_match_src p data data.length 0 pos off len hmem
  refine ⟨hlen, ?_⟩
  unfold find_longest_match at hfl
  split at hfl
  · exfalso
    have h1 := congrArg Prod.snd hfl
    simp only at h1
    omega
  · have hq := flmLoop_offset_bounds p data pos
      (List.range' (windowStart p pos) (pos - windowStart p pos)) (0, 0)
      (fun i hi => by
        rw [List.mem_range'_1] at hi
        have hws : windowStart p pos ≤ pos := by
          unfold windowStart; split <;> omega
        exact ⟨hi.1, by omega⟩)
      (Or.inl rfl)
    rw [hfl] at hq
    simp only at hq
    rcases hq with h0 | ⟨hpos, hle⟩
    · omega
    · have hwd : pos - windowStart p pos ≤ pos ∧
          pos - windowStart p pos ≤ p.window := by
        unfold windowStart
        split <;> omega
      exact ⟨hpos, by omega, by omega⟩

/-- Witness for `lz77_match_token_invariants`: the match token `(4, 3)`
emitted at position 4 of `lz77TieData` satisfies the invariants. -/
theorem lz77_match_token_invariants_witness :
    lz77Default.minMatch ≤ 3 ∧ 0 < 4 ∧ 4 ≤ 4 ∧ 4 ≤ lz77Default.window :=
  lz77_match_token_invariants lz77Default lz77TieData 4 4 3
    (Or.inr (Or.inl rfl)) (by decide)

/-- C3 (amended).  When LZ77 compression finds more than one window match of
the same longest length for the current input position, it emits the match
with the largest offset (the farthest occurrence in the window): every window
position achieving the emitted capped length has offset at most the emitted
offset. -/
theorem lz77_tie_emits_largest_offset (p : LZ77Params) (data : List Nat)
    (pos off len i : Nat) (hmin : 1 ≤ p.minMatch)
    (hmem : (pos, LZToken.mtch off len) ∈ lz77Tokens p data)
    (hi1 : windowStart p pos ≤ i) (hi2 : i < pos)
    (hcap : cappedMatchLength p data pos i = len) :
    pos - i ≤ off := by
  obtain ⟨hfl, hlen⟩ := lz77Tokens_match_src p data data.length 0 pos off len hmem
  unfold find_longest_match at hfl
  split at hfl
  · exfalso
    have h1 := congrArg Prod.snd hfl
    simp only at h1
    omega
  · have hws : windowStart p pos ≤ pos := by
      unfold windowStart; split <;> omega
    have hmain := flmLoop_tiebreak p data pos hmin (pos - windowStart p pos)
      (windowStart p pos) (0, 0) (by norm_num)
      (fun habs => absurd habs (by omega))
      (by rw [hfl]; exact hlen)
      i hi1 (by omega)
      (by rw [hfl]; exact hcap)
    rw [hfl] at hmain
    exact hmain

/-- Witness for `lz77_tie_emits_largest_offset` at the concrete tie input:
the match at position 8 with offset 4 is dominated by the emitted offset 8. -/
theorem lz77_tie_emits_largest_offset_witness : 8 - 4 ≤ 8 :=
  lz77_tie_emits_largest_offset lz77Default lz77TieData 8 8 3 4
    (by decide) (by decide) (by decide) (by decide) (by decide)

/-!
Whole-file Huffman codec, from `src/split_archive.c` (the `huffman.c`
translation unit, lines 386-1090 of the packed file) and `huffman.h`
(`MAX_CHAR = 256`, `DEFAULT_MAX_TREE_DEPTH = 256`).  The tree is built with a
binary min-heap of nodes exactly as the C code does, because extraction order
decides code assignment.
-/

/-- Huffman tree node (`Node` in `huffman.h`): a leaf carries a byte, an
internal node the placeholder character `'$'` (36); both carry a frequency. -/
inductive HNode where
  | leaf (character frequency : Nat)
  | node (character frequency : Nat) (l r : HNode)
deriving DecidableEq

def HNode.frequency : HNode → Nat
  | .leaf _ f => f
  | .node _ f _ _ => f

def HNode.character : HNode → Nat
  | .leaf c _ => c
  | .node c _ _ _ => c

/-- Read a heap slot (`minHeap->array[i]`); out-of-range reads never happen on
the C paths modelled here. -/
def heapGet (a : Array HNode) (i : Nat) : HNode := a.getD i (.leaf 0 0)

/-- Model of `min_heapify` (lines 462-481): pick the smallest of `idx` and its
two children by strict `<` on frequency, swap and recurse.  The fuel bounds
the recursion; `a.size` units always suffice since the index grows. -/
def min_heapify : Nat → Array HNode → Nat → Array HNode
  | 0, a, _ => a
  | fuel + 1, a, idx =>
      let l := 2 * idx + 1
      let r := 2 * idx + 2
      let s1 := if l < a.size ∧ (heapGet a l).frequency < (heapGet a idx).frequency
        then l else idx
      let s2 := if r < a.size ∧ (heapGet a r).frequency < (heapGet a s1).frequency
        then r else s1
      if s2 ≠ idx then
        min_heapify fuel ((a.set! idx (heapGet a s2)).set! s2 (heapGet a idx)) s2
      else a

/-- Model of `extract_min` (lines 489-495): return the root, move the last
element to the root, shrink, re-heapify. -/
def extract_min (a : Array HNode) : HNode × Array HNode :=
  let temp := heapGet a 0
  let a2 := (a.set! 0 (heapGet a (a.size - 1))).pop
  (temp, min_heapify a2.size a2 0)

/-- Sift-up loop of `insert_min_heap` (lines 498-508): shift parents with
strictly larger frequency down, then place the node. -/
def insertSiftGo (nd : HNode) : Nat → Array HNode → Nat → Array HNode
  | 0, a, i => a.set! i nd
  | fuel + 1, a, i =>
      if i ≠ 0 ∧ nd.frequency < (heapGet a ((i - 1) / 2)).frequency then
        insertSiftGo nd fuel (a.set! i (heapGet a ((i - 1) / 2))) ((i - 1) / 2)
      else a.set! i nd

/-- Model of `insert_min_heap`. -/
def insert_min_heap (a : Array HNode) (nd : HNode) : Array HNode :=
  insertSiftGo nd (a.size + 1) (a.push nd) a.size

/-- Model of `build_min_heap` (lines 511-517): heapify indices
`(size - 2) / 2` down to `0` (with C integer division the loop starts at 0
even for heaps of size 1). -/
def build_min_heap (a : Array HNode) : Array HNode :=
  (List.range ((a.size - 2) / 2 + 1)).reverse.foldl
    (fun acc i => min_heapify acc.size acc i) a

/-- Merge loop of `build_huffman_tree` (lines 542-557): while more than one
node remains, extract the two minima, merge them under a `'$'` internal node
(first extracted on the left) and re-insert; then return the final root. -/
def huffMergeLoop : Nat → Array HNode → HNode
  | 0, a => heapGet a 0
  | fuel + 1, a =>
      if a.size = 1 then heapGet a 0
      else
        let e1 := extract_min a
        let e2 := extract_min e1.2
        huffMergeLoop fuel (insert_min_heap e2.2
          (.node 36 (e1.1.frequency + e2.1.frequency) e1.1 e2.1))

/-- Model of `build_huffman_tree` (lines 520-558): count byte frequencies,
seed the heap with the ascending-byte leaves of nonzero frequency, build the
min-heap and merge. -/
def build_huffman_tree (data : List Nat) : HNode :=
  let leaves := ((List.range 256).filterMap fun i =>
    if 0 < data.count i then some (HNode.leaf i (data.count i)) else none).toArray
  huffMergeLoop (build_min_heap leaves).size (build_min_heap leaves)

/-- Maximum code depth (`DEFAULT_MAX_TREE_DEPTH`, the default preset). -/
def MAX_TREE_DEPTH : Nat := 256

/-- Model of `generate_codes` (lines 561-600): DFS assigning `0` on the left
edge and `1` on the right; when the path reaches `MAX_TREE_DEPTH - 1` the
current node's character receives the truncated path; a leaf receives the
full path.  The code table is an array `codes[256]` modelled as a map from
byte to bit list. -/
def generate_codes (t : HNode) (code : List Nat) (codes : Nat → List Nat) :
    Nat → List Nat :=
  match t with
  | .leaf c _ => fun c2 => if c2 = c then code else codes c2
  | .node c _ l r =>
      let codes1 := if code.length < MAX_TREE_DEPTH - 1
        then generate_codes l (code ++ [0]) codes
        else fun c2 => if c2 = c then code else codes c2
      if code.length < MAX_TREE_DEPTH - 1
        then generate_codes r (code ++ [1]) codes1
        else fun c2 => if c2 = c then code else codes1 c2

/-- Model of `write_tree` (lines 612-624): pre-order, `0` for an internal
node followed by both subtrees, `1` plus the byte for a leaf. -/
def write_tree : HNode → List Nat
  | .node _ _ l r => 0 :: (write_tree l ++ write_tree r)
  | .leaf c _ => [1, c]

/-- Bit packer of the compression loop (lines 713-739): set bit
`7 - current_bit` of the current byte for a `1` code bit, flush every 8 bits,
flush the final partial byte zero-padded. -/
def packBitsGo : List Nat → Nat → Nat → List Nat
  | [], bitPos, cur => if 0 < bitPos then [cur] else []
  | b :: bs, bitPos, cur =>
      let cur2 := if b ≠ 0 then cur ||| Nat.shiftLeft 1 (7 - bitPos) else cur
      if bitPos = 7 then cur2 :: packBitsGo bs 0 0
      else packBitsGo bs (bitPos + 1) cur2

/-- Model of `compress_file` (lines 645-746) on the input bytes: 8-byte
little-endian `file_size` (a `long` on LP64), the serialized tree, then the
bit-packed code stream. -/
def compress_file (data : List Nat) : List Nat :=
  leBytes 8 data.length ++ write_tree (build_huffman_tree data) ++
    packBitsGo ((data.map
      (generate_codes (build_huffman_tree data) [] (fun _ => []))).flatten) 0 0

/-- Model of `read_tree` (lines 627-642): flag `0` reads an internal node and
two subtrees, any other flag reads a leaf byte; reading past the end of the
stream (`fgetc` at EOF) is modelled as failure. -/
def read_tree : Nat → List Nat → Option (HNode × List Nat)
  | 0, _ => none
  | _ + 1, [] => none
  | fuel + 1, flag :: rest =>
      if flag = 0 then
        match read_tree fuel rest with
        | none => none
        | some (l, rest1) =>
            match read_tree fuel rest1 with
            | none => none
            | some (r, rest2) => some (.node 36 0 l r, rest2)
      else
        match rest with
        | [] => none
        | c :: rest1 => some (.leaf c 0, rest1)

/-- Bits of a byte, most significant first (`(byte >> bit) & 1` for
`bit = 7..0`). -/
def byteBits (b : Nat) : List Nat :=
  (List.range 8).map fun k => b / 2 ^ (7 - k) % 2

/-- Decompression walk (lines 794-820): follow `right` on a `1` bit and
`left` on a `0` bit; on reaching a leaf emit its byte and restart at the
root; stop after `remaining` bytes or at the end of the bit stream. -/
def walkBits (root : HNode) : List Nat → HNode → Nat → List Nat
  | _, _, 0 => []
  | [], _, _ + 1 => []
  | bit :: bs, cur, rem + 1 =>
      match cur with
      | .leaf _ _ => []
      | .node _ _ l r =>
          match if bit = 1 then r else l with
          | .leaf c _ => c :: walkBits root bs root rem
          | .node c2 f2 l2 r2 => walkBits root bs (.node c2 f2 l2 r2) (rem + 1)

/-- Model of `decompress_file` (lines 749-833): read the 8-byte size header,
deserialize the tree, then walk the bit stream until `original_size` bytes
have been produced. -/
def decompress_file (input : List Nat) : Option (List Nat) :=
  if input.length < 8 then none
  else
    match read_tree input.length (input.drop 8) with
    | none => none
    | some (root, rest) =>
        some (walkBits root ((rest.map byteBits).flatten) root
          (leDecode (input.take 8)))

/-- C4.  Compressing the two-byte input `"ab"` with the whole-file Huffman
codec produces exactly the 8-byte little-endian original-size header with
value 2, the pre-order serialized tree bytes `00 01 61 01 62`, and the single
code-stream byte `0x40` (`'a'` = `0`, `'b'` = `1`, packed MSB-first with zero
padding); decompressing that output yields `"ab"`. -/
theorem huffman_ab_exact :
    compress_file [97, 98] =
      [2, 0, 0, 0, 0, 0, 0, 0, 0, 1, 97, 1, 98, 64] ∧
    decompress_file [2, 0, 0, 0, 0, 0, 0, 0, 0, 1, 97, 1, 98, 64] =
      some [97, 98] := by
  constructor <;> rfl

/-!
Worker-pool parallel driver, from `src/unnamed/part_007` (`parallel.c`).
`compress_file_parallel` partitions the input into `n` contiguous chunks (all
but the last of equal size), compresses each chunk with the primitive codec's
whole-file function into a per-chunk temporary file (the codec's `fopen(...,
"wb")` truncates the temporary, so the chunk file holds exactly the codec
output), and concatenates `[num_threads : int][chunk_size : long |
chunk_bytes]*` in chunk-index order.  `decompress_file_parallel` parses that
layout, decodes every chunk and concatenates the results in index order; its
own thread count only batches the workers and never affects the output.
-/

/-- `MAX_THREADS` from `compression.h`. -/
def MAX_THREADS : Nat := 64

/-- Thread-count selection of `compress_file_parallel` (lines 149-160):
auto-detect on `t <= 0` (modelled by the machine-dependent `optimal`), cap at
`MAX_THREADS`, and fall back to one thread when the file has fewer than 1024
bytes per thread. -/
def parallelThreads (optimal : Nat) (t : Int) : Nat :=
  (if (if t ≤ 0 then (optimal : Int) else t) > (MAX_THREADS : Int)
    then (MAX_THREADS : Int)
    else (if t ≤ 0 then (optimal : Int) else t)).toNat

/-- Small-file fallback of lines 157-160: a single thread when the file has
fewer than 1024 bytes per thread. -/
def parallelChunkCount (optimal : Nat) (t : Int) (fileSize : Nat) : Nat :=
  if fileSize < parallelThreads optimal t * 1024 then 1
  else parallelThreads optimal t

/-- Chunk plan of lines 164-171: `chunk_size = file_size / num_threads`, with
the (unreachable for the computed counts) re-adjustment to 1024-byte chunks
when the quotient falls below 1024. -/
def parallelPlan (optimal : Nat) (t : Int) (fileSize : Nat) : Nat × Nat :=
  if fileSize / parallelChunkCount optimal t fileSize < 1024 ∧
      1 < parallelChunkCount optimal t fileSize then
    (fileSize / 1024 + (if fileSize % 1024 ≠ 0 then 1 else 0), 1024)
  else (parallelChunkCount optimal t fileSize,
    fileSize / parallelChunkCount optimal t fileSize)

/-- Chunk `i` of the partition (lines 212-224): offset `i * chunk_size`, the
last chunk absorbing the remainder. -/
def chunkOfFile (data : List Nat) (n cs i : Nat) : List Nat :=
  if i = n - 1 then data.drop (i * cs) else (data.drop (i * cs)).take cs

/-- Model of `compress_file_parallel` (lines 131-313) with the primitive
codec's whole-file compression abstracted as `enc`: `none` for the empty-file
error, otherwise the 4-byte `num_threads` header followed by each compressed
chunk prefixed by its 8-byte size (`long`), in chunk order. -/
def compress_file_parallel (enc : List Nat → List Nat) (optimal : Nat)
    (t : Int) (data : List Nat) : Option (List Nat) :=
  if data = [] then none
  else
    some (leBytes 4 (parallelPlan optimal t data.length).1 ++
      ((List.range (parallelPlan optimal t data.length).1).map (fun i =>
        leBytes 8 (enc (chunkOfFile data (parallelPlan optimal t data.length).1
          (parallelPlan optimal t data.length).2 i)).length ++
        enc (chunkOfFile data (parallelPlan optimal t data.length).1
          (parallelPlan optimal t data.length).2 i))).flatten)

/-- Per-chunk parsing loop of `decompress_file_parallel` (lines 354-411 and
468-484): read the 8-byte chunk size, read that many bytes (failure on a
short read), decode, and append the decoded chunks in index order. -/
def parseChunksGo (dec : List Nat → List Nat) :
    Nat → List Nat → Option (List Nat)
  | 0, _ => some []
  | k + 1, input =>
      if input.length < 8 then none
      else if (input.drop 8).length < leDecode (input.take 8) then none
      else
        match parseChunksGo dec k ((input.drop 8).drop (leDecode (input.take 8))) with
        | none => none
        | some out => some (dec ((input.drop 8).take (leDecode (input.take 8))) ++ out)

/-- Model of `decompress_file_parallel` (lines 316-498) with the primitive
codec's whole-file decompression abstracted as `dec`: read the 4-byte chunk
count and parse the chunks.  The worker thread count only batches the
decoding and does not appear in the output. -/
def decompress_file_parallel (dec : List Nat → List Nat) (input : List Nat) :
    Option (List Nat) :=
  if input.length < 4 then none
  else parseChunksGo dec (leDecode (input.take 4)) (input.drop 4)

theorem parseChunksGo_frames (dec : List Nat → List Nat) :
    ∀ (chunks : List (List Nat)),
      (∀ e ∈ chunks, e.length < 256 ^ 8) →
      parseChunksGo dec chunks.length
        ((chunks.map (fun e => leBytes 8 e.length ++ e)).flatten) =
        some ((chunks.map dec).flatten) := by
  intro chunks
  induction chunks with
  | nil => intro _; rfl
  | cons e rest ih =>
      intro hlen
      have he : e.length < 256 ^ 8 := hlen e (List.mem_cons_self e rest)
      simp only [List.map_cons, List.flatten_cons, List.length_cons]
      unfold parseChunksGo
      have hl8 : (leBytes 8 e.length).length = 8 := leBytes_length 8 _
      rw [List.append_assoc]
      have htake8 : (leBytes 8 e.length ++ (e ++
          (rest.map (fun e2 => leBytes 8 e2.length ++ e2)).flatten)).take 8 =
          leBytes 8 e.length := by
        rw [List.take_append_eq_append_take, hl8]
        simp [hl8]
      have hdrop8 : (leBytes 8 e.length ++ (e ++
          (rest.map (fun e2 => leBytes 8 e2.length ++ e2)).flatten)).drop 8 =
          e ++ (rest.map (fun e2 => leBytes 8 e2.length ++ e2)).flatten := by
        rw [List.drop_append_eq_append_drop, hl8]
        simp [hl8]
      rw [htake8, hdrop8, leDecode_leBytes 8 _ he]
      rw [if_neg (by simp [hl8]), if_neg (by simp)]
      have htk : (e ++ (rest.map
          (fun e2 => leBytes 8 e2.length ++ e2)).flatten).take e.length = e := by
        rw [List.take_append_eq_append_take]
        simp
      have hdr : (e ++ (rest.map
          (fun e2 => leBytes 8 e2.length ++ e2)).flatten).drop e.length =
          (rest.map (fun e2 => leBytes 8 e2.length ++ e2)).flatten := by
        rw [List.drop_append_eq_append_drop]
        simp
      rw [htk, hdr, ih (fun e2 h2 => hlen e2 (List.mem_cons_of_mem e h2))]

theorem chunkOfFile_succ (data : List Nat) (n cs i : Nat) (hn : 1 ≤ n) :
    chunkOfFile data (n + 1) cs (i + 1) = chunkOfFile (data.drop cs) n cs i := by
  unfold chunkOfFile
  have hdd : (data.drop cs).drop (i * cs) = data.drop ((i + 1) * cs) := by
    rw [List.drop_drop]
    congr 1
    ring
  by_cases h : i + 1 = n + 1 - 1
  · rw [if_pos h, if_pos (by omega), hdd]
  · rw [if_neg h, if_neg (by omega), hdd]

theorem join_chunkOfFile (cs : Nat) :
    ∀ (n : Nat) (data : List Nat), 1 ≤ n →
      ((List.range n).map (chunkOfFile data n cs)).flatten = data := by
  intro n
  induction n with
  | zero => intro data h; omega
  | succ m ih =>
      intro data _
      cases Nat.eq_zero_or_pos m with
      | inl h0 =>
          subst h0
          show (List.map (chunkOfFile data 1 cs) [0]).flatten = data
          simp [chunkOfFile]
      | inr hpos =>
          rw [List.range_succ_eq_map]
          simp only [List.map_cons, List.map_map, List.flatten_cons]
          have h0 : chunkOfFile data (m + 1) cs 0 = data.take cs := by
            unfold chunkOfFile
            rw [if_neg (by omega)]
            simp
          rw [h0]
          have hmap : (List.range m).map (chunkOfFile data (m + 1) cs ∘ Nat.succ) =
              (List.range m).map (chunkOfFile (data.drop cs) m cs) := by
            apply List.map_congr_left
            intro i _
            show chunkOfFile data (m + 1) cs (i + 1) = _
            exact chunkOfFile_succ data m cs i hpos
          rw [hmap, ih (data.drop cs) hpos]
          exact List.take_append_drop cs data

theorem chunkOfFile_length_le (data : List Nat) (n cs i : Nat) :
    (chunkOfFile data n cs i).length ≤ data.length := by
  unfold chunkOfFile
  split
  · simp
  · simp only [List.length_take, List.length_drop]
    omega

theorem chunkOfFile_ne_nil (data : List Nat) (n cs i : Nat) (hi : i < n)
    (hcs : 0 < cs) (hlast : (n - 1) * cs < data.length) :
    chunkOfFile data n cs i ≠ [] := by
  have hlen : 0 < (chunkOfFile data n cs i).length := by
    unfold chunkOfFile
    by_cases h : i = n - 1
    · rw [if_pos h, List.length_drop, h]
      omega
    · rw [if_neg h]
      have hicl : i * cs < (n - 1) * cs :=
        (Nat.mul_lt_mul_right hcs).mpr (by omega)
      simp only [List.length_take, List.length_drop]
      omega
  intro hnil
  rw [hnil] at hlen
  simp at hlen

theorem parallelThreads_pos (optimal : Nat) (t : Int) (hopt : 1 ≤ optimal) :
    1 ≤ parallelThreads optimal t := by
  unfold parallelThreads MAX_THREADS
  split
  · omega
  · split <;> omega

theorem parallelChunkCount_pos (optimal : Nat) (t : Int) (fileSize : Nat)
    (hopt : 1 ≤ optimal) : 1 ≤ parallelChunkCount optimal t fileSize := by
  have := parallelThreads_pos optimal t hopt
  unfold parallelChunkCount
  split <;> omega

theorem parallelThreads_le (optimal : Nat) (t : Int) :
    parallelThreads optimal t ≤ 64 := by
  unfold parallelThreads MAX_THREADS
  split
  · omega
  · split <;> omega

theorem parallelChunkCount_le (optimal : Nat) (t : Int) (fileSize : Nat) :
    parallelChunkCount optimal t fileSize ≤ 64 := by
  have := parallelThreads_le optimal t
  unfold parallelChunkCount
  split <;> omega

theorem parallelChunkCount_chunk_big (optimal : Nat) (t : Int) (fileSize : Nat)
    (h : 1 < parallelChunkCount optimal t fileSize) :
    1024 * parallelChunkCount optimal t fileSize ≤ fileSize := by
  unfold parallelChunkCount at *
  split at h
  · omega
  · rename_i h2
    rw [if_neg h2]
    omega

theorem parallelPlan_eq (optimal : Nat) (t : Int) (fileSize : Nat)
    (hopt : 1 ≤ optimal) :
    parallelPlan optimal t fileSize =
      (parallelChunkCount optimal t fileSize,
        fileSize / parallelChunkCount optimal t fileSize) := by
  unfold parallelPlan
  split
  · rename_i hcond
    exfalso
    have hbig := parallelChunkCount_chunk_big optimal t fileSize hcond.2
    have hpos : 0 < parallelChunkCount optimal t fileSize :=
      parallelChunkCount_pos optimal t fileSize (by omega)
    have : 1024 ≤ fileSize / parallelChunkCount optimal t fileSize :=
      (Nat.le_div_iff_mul_le hpos).mpr (by omega)
    omega
  · rfl

/-- C1.  For every non-empty input, every primitive codec registered with the
driver (abstracted as `enc`/`dec` with the whole-file round-trip property on
non-empty buffers and bounded output size), and every thread count `t`,
decompressing the result of worker-pool parallel compression yields exactly
the input: the driver partitions the input into contiguous chunks, each chunk
is compressed independently, and the decompressor decodes the chunks and
concatenates them in original input order, so the decoded result is
independent of the thread count and of worker scheduling. -/
theorem parallel_roundtrip (enc dec : List Nat → List Nat) (optimal : Nat)
    (t : Int) (data : List Nat) (hne : data ≠ []) (hopt : 1 ≤ optimal)
    (hdec : ∀ c, c ≠ [] → dec (enc c) = c)
    (hlen : ∀ c, c ≠ [] → c.length ≤ data.length → (enc c).length < 256 ^ 8) :
    (compress_file_parallel enc optimal t data).bind
      (decompress_file_parallel dec) = some data := by
  have hdl : 0 < data.length := List.length_pos.mpr hne
  have hplan := parallelPlan_eq optimal t data.length hopt
  have hnpos : 1 ≤ parallelChunkCount optimal t data.length :=
    parallelChunkCount_pos optimal t data.length hopt
  have hn64 : parallelChunkCount optimal t data.length ≤ 64 :=
    parallelChunkCount_le optimal t data.length
  set n := parallelChunkCount optimal t data.length with hn
  set cs := data.length / n with hcs
  have hnle : n ≤ data.length := by
    rcases Nat.lt_or_ge 1 n with h1 | h1
    · have := parallelChunkCount_chunk_big optimal t data.length h1
      rw [← hn] at this
      omega
    · omega
  have hcspos : 0 < cs := by
    rw [hcs]
    exact Nat.one_le_div_iff (by omega) |>.mpr hnle
  have hlast : (n - 1) * cs < data.length := by
    have h1 : cs * n ≤ data.length := by
      rw [hcs]; exact Nat.div_mul_le_self data.length n
    calc (n - 1) * cs = n * cs - cs := by rw [Nat.sub_mul, one_mul]
      _ ≤ data.length - cs := by
          apply Nat.sub_le_sub_right
          rw [Nat.mul_comm]; exact h1
      _ < data.length := Nat.sub_lt hdl hcspos
  have hchunk_ne : ∀ i ∈ List.range n, chunkOfFile data n cs i ≠ [] :=
    fun i hi => chunkOfFile_ne_nil data n cs i (List.mem_range.mp hi) hcspos hlast
  unfold compress_file_parallel
  rw [if_neg hne, hplan]
  rw [Option.some_bind]
  unfold decompress_file_parallel
  have hl4 : (leBytes 4 n).length = 4 := leBytes_length 4 n
  have htake4 : (leBytes 4 n ++ ((List.range n).map (fun i =>
      leBytes 8 (enc (chunkOfFile data n cs i)).length ++
        enc (chunkOfFile data n cs i))).flatten).take 4 = leBytes 4 n := by
    rw [List.take_append_eq_append_take, hl4]
    simp [hl4]
  have hdrop4 : (leBytes 4 n ++ ((List.range n).map (fun i =>
      leBytes 8 (enc (chunkOfFile data n cs i)).length ++
        enc (chunkOfFile data n cs i))).flatten).drop 4 =
      ((List.range n).map (fun i =>
        leBytes 8 (enc (chunkOfFile data n cs i)).length ++
          enc (chunkOfFile data n cs i))).flatten := by
    rw [List.drop_append_eq_append_drop, hl4]
    simp [hl4]
  rw [if_neg (by rw [List.length_append, hl4]; omega), htake4, hdrop4,
    leDecode_leBytes 4 n (by norm_num; omega)]
  have hframes : ((List.range n).map (fun i =>
      leBytes 8 (enc (chunkOfFile data n cs i)).length ++
        enc (chunkOfFile data n cs i))) =
      (((List.range n).map (fun i => enc (chunkOfFile data n cs i))).map
        (fun e => leBytes 8 e.length ++ e)) := by
    rw [List.map_map]
    rfl
  have hpf := parseChunksGo_frames dec ((List.range n).map
      (fun i => enc (chunkOfFile data n cs i)))
      (by
        intro e hee
        rw [List.mem_map] at hee
        obtain ⟨i, hi, rfl⟩ := hee
        exact hlen _ (hchunk_ne i hi) (chunkOfFile_length_le data n cs i))
  simp only [List.length_map, List.length_range] at hpf
  rw [hframes, hpf]
  congr 1
  rw [List.map_map]
  have hpt : (List.range n).map (dec ∘ fun i => enc (chunkOfFile data n cs i)) =
      (List.range n).map (chunkOfFile data n cs) := by
    apply List.map_congr_left
    intro i hi
    exact hdec _ (hchunk_ne i hi)
  rw [hpt]
  exact join_chunkOfFile cs n data hnpos

/-- Witness for `parallel_roundtrip`: the identity codec on a 2048-byte input
with 2 requested threads (two 1024-byte chunks). -/
theorem parallel_roundtrip_witness :
    (compress_file_parallel id 4 2 (List.replicate 2048 7)).bind
      (decompress_file_parallel id) = some (List.replicate 2048 7) :=
  parallel_roundtrip id id 4 2 (List.replicate 2048 7)
    (List.length_pos.mp (by rw [List.length_replicate]; norm_num)) (by norm_num)
    (fun c _ => rfl)
    (fun c _ hcl => by
      show c.length < 256 ^ 8
      have h2048 : (List.replicate (2048 : Nat) (7 : Nat)).length = 2048 :=
        List.length_replicate 2048 7
      rw [h2048] at hcl
      norm_num
      omega)

/-!
Buffer-based compression interface, from `src/unnamed/part_006`
(`compression.c` lines 255-319): for the `HUFFMAN` (0) and `RLE` (1)
algorithm indices both `compress_buffer` and `decompress_buffer` are
placeholder identity copies that fail when the output buffer is smaller than
the input; every other index fails.  The progressive container
(`src/progressive.c` lines 827-875) and the split-archive compressor
(`src/split_archive.c` lines 162-207) build their block and chunk payloads
through this interface.
-/

/-- Model of `compress_buffer`: C return value 1 with the copied output and
its size becomes `some input`; return value 0 becomes `none`. -/
def compress_buffer (alg : Int) (input : List Nat) (outCap : Nat) :
    Option (List Nat) :=
  if alg = 0 then
    if outCap < input.length then none else some input
  else if alg = 1 then
    if outCap < input.length then none else some input
  else none

/-- Model of `decompress_buffer`: identical placeholder structure. -/
def decompress_buffer (alg : Int) (input : List Nat) (outCap : Nat) :
    Option (List Nat) :=
  if alg = 0 then
    if outCap < input.length then none else some input
  else if alg = 1 then
    if outCap < input.length then none else some input
  else none

/-- `DEFAULT_BLOCK_SIZE` from `progressive.h` (1 MiB). -/
def DEFAULT_BLOCK_SIZE : Nat := 1048576

/-- `DEFAULT_CHUNK_SIZE` from `large_file_utils.h` (1 MiB). -/
def DEFAULT_CHUNK_SIZE : Nat := 1048576

/-- Chunk loop shared by the progressive and split-archive compressors:
compress each chunk through `compress_buffer`, aborting the job on the first
failure. -/
def compressChunksLoop (alg : Int) (cap : Nat) :
    List (List Nat) → Option (List (List Nat))
  | [] => some []
  | c :: rest =>
      match compress_buffer alg c cap with
      | none => none
      | some e =>
          match compressChunksLoop alg cap rest with
          | none => none
          | some es => some (e :: es)

/-- Block payloads written by `progressive_compress_file` (lines 799-875):
each `block_size` slice of the input is compressed with `compress_buffer`
(`HUFFMAN`, output capacity `block_size * 2`) and written verbatim after its
block header. -/
def progressive_block_payloads (data : List Nat) (bs : Nat) :
    Option (List (List Nat)) :=
  compressChunksLoop 0 (bs * 2) (chunksOf bs data)

/-- Source bytes of split part `p` (1-based): `max_part_size` bytes starting
at `(p - 1) * max_part_size` (lines 139-141 and the sequential reads). -/
def split_part_data (input : List Nat) (mps p : Nat) : List Nat :=
  (input.drop ((p - 1) * mps)).take mps

/-- Payload of split part `p` as written by `compress_to_split_archive`
(lines 162-207): the part's source bytes are read in `DEFAULT_CHUNK_SIZE`
chunks, each compressed with `compress_buffer` (capacity `buffer_size * 2`)
and appended after the part header. -/
def split_part_payload (alg : Int) (input : List Nat) (mps p : Nat) :
    Option (List Nat) :=
  (compressChunksLoop alg (DEFAULT_CHUNK_SIZE * 2)
    (chunksOf DEFAULT_CHUNK_SIZE (split_part_data input mps p))).map List.flatten

theorem compressChunksLoop_id (alg : Int) (cap : Nat)
    (halg : alg = 0 ∨ alg = 1) :
    ∀ (chunks : List (List Nat)), (∀ c ∈ chunks, c.length ≤ cap) →
      compressChunksLoop alg cap chunks = some chunks := by
  intro chunks
  induction chunks with
  | nil => intro _; rfl
  | cons c rest ih =>
      intro hc
      have hcb : compress_buffer alg c cap = some c := by
        unfold compress_buffer
        have hlc : ¬ cap < c.length :=
          Nat.not_lt.mpr (hc c (List.mem_cons_self c rest))
        rcases halg with rfl | rfl
        · rw [if_pos rfl, if_neg hlc]
        · rw [if_neg (by norm_num), if_pos rfl, if_neg hlc]
      unfold compressChunksLoop
      rw [hcb, ih (fun c2 h2 => hc c2 (List.mem_cons_of_mem c h2))]

/-- C10.  For the Huffman and RLE algorithm indices, `compress_buffer` and
`decompress_buffer` copy their input to the output unchanged whenever the
output buffer is at least as large as the input, and both fail for every
other algorithm index; consequently every block payload written by the
progressive container and every chunk payload written by the split-archive
compressor equal the corresponding slice of the raw input byte for byte. -/
theorem buffer_codec_identity (alg : Int) (input : List Nat) (outCap : Nat) :
    ((alg = 0 ∨ alg = 1) → input.length ≤ outCap →
      compress_buffer alg input outCap = some input ∧
      decompress_buffer alg input outCap = some input) ∧
    (alg ≠ 0 → alg ≠ 1 →
      compress_buffer alg input outCap = none ∧
      decompress_buffer alg input outCap = none) ∧
    (∀ bs : Nat, 1 ≤ bs →
      progressive_block_payloads input bs = some (chunksOf bs input)) ∧
    (∀ mps p : Nat, (alg = 0 ∨ alg = 1) →
      split_part_payload alg input mps p = some (split_part_data input mps p)) := by
  refine ⟨?_, ?_, ?_, ?_⟩
  · intro halg hle
    have hlc : ¬ outCap < input.length := Nat.not_lt.mpr hle
    unfold compress_buffer decompress_buffer
    rcases halg with rfl | rfl
    · rw [if_pos rfl, if_neg hlc]
      exact ⟨rfl, rfl⟩
    · rw [if_neg (by norm_num), if_pos rfl, if_neg hlc]
      exact ⟨rfl, rfl⟩
  · intro h0 h1
    unfold compress_buffer decompress_buffer
    rw [if_neg h0, if_neg h1]
    exact ⟨rfl, rfl⟩
  · intro bs hbs
    unfold progressive_block_payloads
    exact compressChunksLoop_id 0 (bs * 2) (Or.inl rfl) _
      (fun c hc => le_trans (chunksOf_length_le bs input c hc) (by omega))
  · intro mps p halg
    unfold split_part_payload
    rw [compressChunksLoop_id alg (DEFAULT_CHUNK_SIZE * 2) halg _
      (fun c hc => le_trans
        (chunksOf_length_le DEFAULT_CHUNK_SIZE (split_part_data input mps p) c hc)
        (by unfold DEFAULT_CHUNK_SIZE; omega))]
    show some ((chunksOf DEFAULT_CHUNK_SIZE (split_part_data input mps p)).flatten) =
      some (split_part_data input mps p)
    rw [join_chunksOf DEFAULT_CHUNK_SIZE (by unfold DEFAULT_CHUNK_SIZE; omega)]

/-- Witness for `buffer_codec_identity` at concrete inputs. -/
theorem buffer_codec_identity_witness :
    compress_buffer 0 [5, 6] 2 = some [5, 6] ∧
    decompress_buffer 4 [5, 6] 9 = none ∧
    progressive_block_payloads [1, 2, 3] 2 = some [[1, 2], [3]] ∧
    split_part_payload 1 [1, 2, 3] 2 2 = some [3] := by
  refine ⟨?_, ?_, ?_, ?_⟩
  · exact ((buffer_codec_identity 0 [5, 6] 2).1 (Or.inl rfl) (by norm_num)).1
  · exact ((buffer_codec_identity 4 [5, 6] 9).2.1
      (by norm_num) (by norm_num)).2
  · have h := (buffer_codec_identity 0 [1, 2, 3] 0).2.2.1 2 (by norm_num)
    rw [h]; rfl
  · have h := (buffer_codec_identity 1 [1, 2, 3] 0).2.2.2 2 2 (Or.inr rfl)
    rw [h]; rfl

/-!
Progressive container full decompression, from `src/progressive.c` lines
902-972.  `progressive_decompress_file` does not read the container at all:
it strips the `.prog` extension from the input file name (truncated to
`MAX_PATH_LENGTH - 1` bytes), opens the ORIGINAL file of that name and
copies its bytes to the output.  The filesystem is modelled as a map from
file names (byte lists) to contents. -/

/-- ASCII bytes of the `.prog` extension. -/
def progExt : List Nat := [46, 112, 114, 111, 103]

/-- Model of `progressive_decompress_file` (lines 902-972): when the input
name ends in `.prog`, copy the file whose name is the input minus the
extension (truncated to 1023 bytes, `MAX_PATH_LENGTH - 1`); opening failures
and a missing extension are errors.  The container file's contents are never
read. -/
def progressive_decompress_file (fs : List Nat → Option (List Nat))
    (input : List Nat) : Option (List Nat) :=
  if 5 < input.length ∧ input.drop (input.length - 5) = progExt then
    match fs ((input.take (input.length - 5)).take 1023) with
    | none => none
    | some content => some content
  else none

/-- ASCII bytes of the original file name `doc.txt` of the C2 scenario. -/
def c2OrigName : List Nat := [100, 111, 99, 46, 116, 120, 116]

/-- ASCII bytes of the container file name `doc.txt.prog`. -/
def c2ProgName : List Nat := c2OrigName ++ progExt

/-- Filesystem of the C2 scenario: the container file `doc.txt.prog` holds
arbitrary container bytes (in the failing scenario, the progressive container
built over the input `[1, 2, 3]`), while the side file `doc.txt` now holds
`[9, 9]`. -/
def c2Fs (container : List Nat) : List Nat → Option (List Nat) :=
  fun name =>
    if name = c2ProgName then some container
    else if name = c2OrigName then some [9, 9] else none

/-- C2 (code bug).  Full progressive decompression does not iterate and
decode the container's blocks: for every container contents (in particular
the container built over `[1, 2, 3]`) the decompressor returns the current
bytes of the side file obtained by stripping `.prog` — here `[9, 9]`, not the
compressed input `[1, 2, 3]`. -/
theorem progressive_decompress_bypasses_container :
    (∀ container : List Nat,
      progressive_decompress_file (c2Fs container) c2ProgName = some [9, 9]) ∧
    ([9, 9] : List Nat) ≠ [1, 2, 3] := by
  constructor
  · intro container
    rfl
  · decide

/-- Witness for `progressive_decompress_bypasses_container` at an empty
container. -/
theorem progressive_decompress_bypasses_container_witness :
    progressive_decompress_file (c2Fs []) c2ProgName = some [9, 9] :=
  progressive_decompress_bypasses_container.1 []

/-!
Exit-code mapping of `main`, from `src/filecompressor.c` lines 573-613.  The
codecs disagree on result conventions — the whole-file Huffman `compress_file`
and `decompress_file`, RLE and LZ77 all return 0 on success and nonzero on
failure — yet `main` maps results to exit codes assuming that non-RLE
algorithms return nonzero on success.
-/

/-- Model of the final `return` statements of `main` (lines 604-612): with
deduplication, exit `result ? 1 : 0`; for algorithm indices 1 and 3 (RLE and
RLE-Parallel) with `result == 0`, exit 0; otherwise exit `result ? 0 : 1`. -/
def main_exit_code (dedup : Bool) (algorithmIndex result : Int) : Int :=
  if dedup then (if result = 0 then 0 else 1)
  else if (algorithmIndex = 1 ∨ algorithmIndex = 3) ∧ result = 0 then 0
  else if result ≠ 0 then 0 else 1

/-- Return value of the Huffman `compress_file` on success
(`src/split_archive.c` line 745: `return 0`). -/
def huffmanSuccessResult : Int := 0

/-- Return value of the Huffman `compress_file` when the input cannot be
opened (line 649: `return 1`). -/
def huffmanFailureResult : Int := 1

/-- Return value of `compress_rle`/`decompress_rle` on failure
(`src/rle.c` lines 19 and 31: `return 1`). -/
def rleFailureResult : Int := 1

/-- Return value of `compress_lz77` on success (`src/unnamed/part_004`
line 319: `result = 0`). -/
def lz77SuccessResult : Int := 0

/-- C7 (code bug).  The CLI exit code is not 0 exactly on success: a
successful Huffman compression (`-c 0`, result 0) exits with 1, a failed
Huffman run exits with 0, a failed RLE run (index 1, result 1) exits with 0,
and a successful LZ77 compression (index 4, result 0) exits with 1. -/
theorem main_exit_code_inverted :
    main_exit_code false 0 huffmanSuccessResult = 1 ∧
    main_exit_code false 0 huffmanFailureResult = 0 ∧
    main_exit_code false 1 rleFailureResult = 0 ∧
    main_exit_code false 4 lz77SuccessResult = 1 := by
  decide

/-!
Deduplication filter, from the `deduplication.c` translation unit packed into
`src/build.bat` (lines 57-516).  The encoder runs two passes: pass 1 chunks
the input (fixed-size or content-defined), hashes each chunk and records
`(offset, chunk_size, is_duplicate)` index entries while building a hash
table of first occurrences; pass 2 writes
`"DEDUP" | original_file_size : u64 | total_chunks : u64` and per chunk
`chunk_size : size_t (8 bytes on LP64) | is_ref : u8 |` then either the
original offset (u64, looked up in the hash table) or the raw chunk bytes.
The chunk hash function is abstracted as a parameter (`SHA1`/`MD5`/`CRC32`
adapters produce a 20-byte value); the emitted layout does not depend on it.
-/

/-- `MIN_DEDUP_SIZE` (line 98). -/
def MIN_DEDUP_SIZE : Nat := 64

/-- Modulus of `uint32_t` arithmetic. -/
def M32 : Nat := 4294967296

/-- `uint32_t` subtraction with wraparound. -/
def sub32 (a b : Nat) : Nat := (a % M32 + (M32 - b % M32)) % M32

/-- Model of `roll_hash` (lines 213-215):
`CDC_PRIME * (current_hash - out_byte * power) + in_byte` in `uint32_t`. -/
def roll_hash (h outB inB power : Nat) : Nat :=
  (31 * sub32 h (outB * power % M32) + inB) % M32

/-- Initial window hash of `find_chunk_boundary` (lines 230-235):
`hash = hash * CDC_PRIME + data[i]` over the window, in `uint32_t`. -/
def cdcInitHash (w : List Nat) : Nat :=
  w.foldl (fun h b => (h * 31 + b) % M32) 0

/-- Window power of `find_chunk_boundary`: `power *= CDC_PRIME` applied
`window_size - 1` times in `uint32_t`, i.e. `31 ^ (ws - 1) mod 2 ^ 32`. -/
def cdcPower (ws : Nat) : Nat := 31 ^ (ws - 1) % M32

/-- Rolling scan of `find_chunk_boundary` (lines 238-245): the pair list
carries `(data[i - ws], data[i])` for `i = ws, ws + 1, ...`; a boundary is
declared at `i + 1` when the rolled hash masked with `0xFFFF` is zero. -/
def cdcScan : List (Nat × Nat) → Nat → Nat → Nat → Option Nat
  | [], _, _, _ => none
  | pr :: rest, h, pw, i =>
      if roll_hash h pr.1 pr.2 pw % 65536 = 0 then some (i + 1)
      else cdcScan rest (roll_hash h pr.1 pr.2 pw) pw (i + 1)

/-- Model of `find_chunk_boundary` (lines 218-249): buffers of at most
`MIN_DEDUP_SIZE` bytes are whole chunks; otherwise roll a window of
`min 48 size` bytes and stop at the first masked-zero hash, falling back to
the whole buffer. -/
def find_chunk_boundary (data : List Nat) : Nat :=
  if data.length ≤ MIN_DEDUP_SIZE then data.length
  else
    match cdcScan (data.zip (data.drop (min 48 data.length)))
        (cdcInitHash (data.take (min 48 data.length)))
        (cdcPower (min 48 data.length)) (min 48 data.length) with
    | some b => b
    | none => data.length

/-- A hash-table entry (`ChunkHash`, lines 72-78).  Bucketing by the first
two hash bytes only partitions the table; since a lookup filters on full
hash equality, the table is modelled as one prepend-ordered list, which
preserves each bucket's list order. -/
structure ChunkHash where
  hash : List Nat
  offset : Nat
  size : Nat
  ref_count : Nat
deriving DecidableEq

/-- Duplicate search of `add_chunk` (lines 266-276): find the first entry
with equal hash and size, bump its reference count. -/
def addChunkGo (h : List Nat) (sz : Nat) :
    List ChunkHash → Option (List ChunkHash)
  | [] => none
  | e :: rest =>
      if e.hash = h ∧ e.size = sz then
        some ({ e with ref_count := e.ref_count + 1 } :: rest)
      else
        match addChunkGo h sz rest with
        | none => none
        | some rest2 => some (e :: rest2)

/-- Model of `add_chunk` (lines 252-293): returns whether the chunk was a
duplicate, prepending a fresh entry otherwise. -/
def add_chunk (hashFn : List Nat → List Nat) (table : List ChunkHash)
    (chunk : List Nat) (offset : Nat) : Bool × List ChunkHash :=
  match addChunkGo (hashFn chunk) chunk.length table with
  | some t2 => (true, t2)
  | none => (false, ⟨hashFn chunk, offset, chunk.length, 1⟩ :: table)

/-- An index-file record of the first pass (lines 369-372):
`(offset, chunk_size, result)`. -/
structure DedupIndexRecord where
  offset : Nat
  size : Nat
  isDup : Bool
deriving DecidableEq

/-- Chunk span taken at `offset` (lines 345-364): `bytes_read` is
`min chunk_size remaining`; fixed mode consumes the whole read, the
content-defined modes consume up to the first boundary of the read buffer. -/
def dedupChunkSpan (mode cs : Nat) (data : List Nat) (offset : Nat) : Nat :=
  if mode = 0 then min cs (data.length - offset)
  else find_chunk_boundary ((data.drop offset).take (min cs (data.length - offset)))

/-- First pass of `deduplicate_file` (lines 343-382): walk the input,
recording one index record per chunk and threading the hash table.  The fuel
only forces termination; `data.length` units suffice since every chunk spans
at least one byte. -/
def dedupFirstPass (hashFn : List Nat → List Nat) (mode cs : Nat)
    (data : List Nat) : Nat → Nat → List ChunkHash →
    List DedupIndexRecord × List ChunkHash
  | 0, _, table => ([], table)
  | fuel + 1, offset, table =>
      if data.length ≤ offset then ([], table)
      else
        ((⟨offset, dedupChunkSpan mode cs data offset,
            (add_chunk hashFn table
              ((data.drop offset).take (dedupChunkSpan mode cs data offset))
              offset).1⟩ : DedupIndexRecord) ::
          (dedupFirstPass hashFn mode cs data fuel
            (offset + dedupChunkSpan mode cs data offset)
            (add_chunk hashFn table
              ((data.drop offset).take (dedupChunkSpan mode cs data offset))
              offset).2).1,
        (dedupFirstPass hashFn mode cs data fuel
            (offset + dedupChunkSpan mode cs data offset)
            (add_chunk hashFn table
              ((data.drop offset).take (dedupChunkSpan mode cs data offset))
              offset).2).2)

/-- Original-offset search of the second pass (lines 422-433): scan the
table; on a hash-and-size match take the entry's offset and stop unless it
equals the chunk's own offset, in which case keep scanning with it as the
fallback. -/
def dedupLookupGo (h : List Nat) (sz co : Nat) :
    List ChunkHash → Nat → Nat
  | [], acc => acc
  | e :: rest, acc =>
      if e.hash = h ∧ e.size = sz then
        if e.offset ≠ co then e.offset
        else dedupLookupGo h sz co rest e.offset
      else dedupLookupGo h sz co rest acc

/-- Offset written for a duplicate chunk: the second pass re-reads the chunk
bytes, hashes them and searches the table (initial `original_offset = 0`). -/
def dedup_lookup_offset (hashFn : List Nat → List Nat) (data : List Nat)
    (table : List ChunkHash) (r : DedupIndexRecord) : Nat :=
  dedupLookupGo (hashFn ((data.drop r.offset).take r.size)) r.size r.offset
    table 0

/-- Second pass of `deduplicate_file` (lines 396-448): per index record,
write the 8-byte `chunk_size` (`size_t` on LP64), the `is_ref` flag byte,
and either the 8-byte original offset or the raw chunk bytes. -/
def dedupSecondPass (hashFn : List Nat → List Nat) (data : List Nat)
    (table : List ChunkHash) : List DedupIndexRecord → List Nat
  | [] => []
  | r :: rs =>
      leBytes 8 r.size ++
        (if r.isDup then 1 :: leBytes 8 (dedup_lookup_offset hashFn data table r)
          else 0 :: (data.drop r.offset).take r.size) ++
        dedupSecondPass hashFn data table rs

/-- ASCII bytes of the `"DEDUP"` magic. -/
def dedupMagic : List Nat := [68, 69, 68, 85, 80]

/-- Model of `deduplicate_file` (lines 296-485, without the optional
follow-up codec): magic, 8-byte original size, 8-byte chunk count, then the
second-pass records. -/
def deduplicate_file (hashFn : List Nat → List Nat) (mode cs : Nat)
    (data : List Nat) : List Nat :=
  dedupMagic ++ leBytes 8 data.length ++
    leBytes 8 (dedupFirstPass hashFn mode cs data data.length 0 []).1.length ++
    dedupSecondPass hashFn data
      (dedupFirstPass hashFn mode cs data data.length 0 []).2
      (dedupFirstPass hashFn mode cs data data.length 0 []).1

/-- Per-record writer of the layout asserted by the claim, with `chunk_size`
as a 4-byte `u32`.  This definition follows the claim's words, for
comparison with the source encoder. -/
def dedupSecondPassU32 (hashFn : List Nat → List Nat) (data : List Nat)
    (table : List ChunkHash) : List DedupIndexRecord → List Nat
  | [] => []
  | r :: rs =>
      leBytes 4 r.size ++
        (if r.isDup then 1 :: leBytes 8 (dedup_lookup_offset hashFn data table r)
          else 0 :: (data.drop r.offset).take r.size) ++
        dedupSecondPassU32 hashFn data table rs

/-- Encoder output asserted by the claim (`chunk_size: u32`); follows the
claim's words. -/
def dedupClaimedLayout (hashFn : List Nat → List Nat) (mode cs : Nat)
    (data : List Nat) : List Nat :=
  dedupMagic ++ leBytes 8 data.length ++
    leBytes 8 (dedupFirstPass hashFn mode cs data data.length 0 []).1.length ++
    dedupSecondPassU32 hashFn data
      (dedupFirstPass hashFn mode cs data data.length 0 []).2
      (dedupFirstPass hashFn mode cs data data.length 0 []).1

/-- A 20-byte constant hash; the layout does not depend on the hash choice. -/
def czeroHash : List Nat → List Nat := fun _ => List.replicate 20 0

/-- C8 counterexample.  On the 3-byte input `[10, 20, 30]` (one unique
fixed-mode chunk) the encoder emits an 8-byte `chunk_size` field — the
record is `03 00 00 00 00 00 00 00 | 00 | 0A 14 1E` — so the output differs
from the claimed layout with a 4-byte (`u32`) `chunk_size`. -/
theorem dedup_chunk_size_not_u32 :
    deduplicate_file czeroHash 0 4096 [10, 20, 30] =
      [68, 69, 68, 85, 80] ++
        [3, 0, 0, 0, 0, 0, 0, 0] ++
        [1, 0, 0, 0, 0, 0, 0, 0] ++
        [3, 0, 0, 0, 0, 0, 0, 0] ++
        [0, 10, 20, 30] ∧
    dedupClaimedLayout czeroHash 0 4096 [10, 20, 30] =
      [68, 69, 68, 85, 80] ++
        [3, 0, 0, 0, 0, 0, 0, 0] ++
        [1, 0, 0, 0, 0, 0, 0, 0] ++
        [3, 0, 0, 0] ++
        [0, 10, 20, 30] ∧
    deduplicate_file czeroHash 0 4096 [10, 20, 30] ≠
      dedupClaimedLayout czeroHash 0 4096 [10, 20, 30] := by
  refine ⟨?_, ?_, ?_⟩ <;> decide

/-- Payload of a parsed deduplication record: an 8-byte back reference or the
raw chunk bytes. -/
inductive DedupPayload where
  | ref (offset : Nat)
  | bytes (chunk : List Nat)
deriving DecidableEq

/-- A record parsed back from the encoder's output. -/
structure DedupParsedRecord where
  size : Nat
  payload : DedupPayload
deriving DecidableEq

/-- Parser for the per-chunk records of the amended layout: 8-byte
`chunk_size`, one `is_ref` flag byte, then an 8-byte original offset
(`is_ref = 1`) or `chunk_size` raw bytes (`is_ref = 0`); the stream must be
consumed exactly. -/
def dedupParseRecords : Nat → List Nat → Option (List DedupParsedRecord)
  | 0, input => if input = [] then some [] else none
  | k + 1, input =>
      if input.length < 8 then none
      else
        match input.drop 8 with
        | [] => none
        | flag :: rest =>
            if flag = 1 then
              if rest.length < 8 then none
              else
                match dedupParseRecords k (rest.drop 8) with
                | none => none
                | some rs =>
                    some (⟨leDecode (input.take 8),
                      .ref (leDecode (rest.take 8))⟩ :: rs)
            else if flag = 0 then
              if rest.length < leDecode (input.take 8) then none
              else
                match dedupParseRecords k (rest.drop (leDecode (input.take 8))) with
                | none => none
                | some rs =>
                    some (⟨leDecode (input.take 8),
                      .bytes (rest.take (leDecode (input.take 8)))⟩ :: rs)
            else none

/-- Parser for the amended deduplication layout: `"DEDUP"`, 8-byte original
size, 8-byte chunk count, then exactly that many records. -/
def dedupParse (output : List Nat) : Option (Nat × List DedupParsedRecord) :=
  if output.take 5 = dedupMagic then
    match dedupParseRecords (leDecode ((output.drop 13).take 8))
        (output.drop 21) with
    | none => none
    | some rs => some (leDecode ((output.drop 5).take 8), rs)
  else none

/-- The parsed form of an index record as the second pass writes it. -/
def dedupRecordDescr (hashFn : List Nat → List Nat) (data : List Nat)
    (table : List ChunkHash) (r : DedupIndexRecord) : DedupParsedRecord :=
  ⟨r.size, if r.isDup then DedupPayload.ref (dedup_lookup_offset hashFn data table r)
    else DedupPayload.bytes ((data.drop r.offset).take r.size)⟩

theorem cdcScan_bounds :
    ∀ (pairs : List (Nat × Nat)) (h pw i b : Nat),
      cdcScan pairs h pw i = some b → i < b ∧ b ≤ i + pairs.length := by
  intro pairs
  induction pairs with
  | nil => intro h pw i b hb; simp [cdcScan] at hb
  | cons pr rest ih =>
      intro h pw i b hb
      unfold cdcScan at hb
      split at hb
      · simp only [Option.some.injEq] at hb
        simp only [List.length_cons]
        omega
      · have := ih _ pw (i + 1) b hb
        simp only [List.length_cons]
        omega

theorem find_chunk_boundary_bounds (data : List Nat) (hne : data ≠ []) :
    1 ≤ find_chunk_boundary data ∧ find_chunk_boundary data ≤ data.length := by
  have hpos : 0 < data.length := List.length_pos.mpr hne
  unfold find_chunk_boundary
  split
  · omega
  · rename_i hlarge
    unfold MIN_DEDUP_SIZE at hlarge
    have hmin : min 48 data.length = 48 := Nat.min_eq_left (by omega)
    rw [hmin]
    cases hscan : cdcScan (data.zip (data.drop 48)) (cdcInitHash (data.take 48))
        (cdcPower 48) 48 with
    | none => exact ⟨hpos, Nat.le_refl _⟩
    | some b =>
        have hb := cdcScan_bounds _ _ _ _ _ hscan
        have hzlen : (data.zip (data.drop 48)).length = data.length - 48 := by
          rw [List.length_zip, List.length_drop]
          exact Nat.min_eq_right (Nat.sub_le _ _)
        refine ⟨?_, ?_⟩
        · show 1 ≤ b
          omega
        · show b ≤ data.length
          omega

theorem dedupChunkSpan_pos (mode cs : Nat) (data : List Nat) (offset : Nat)
    (hcs : 1 ≤ cs) (hoff : offset < data.length) :
    1 ≤ dedupChunkSpan mode cs data offset := by
  unfold dedupChunkSpan
  split
  · omega
  · have hne : (data.drop offset).take (min cs (data.length - offset)) ≠ [] := by
      apply List.length_pos.mp
      simp only [List.length_take, List.length_drop]
      omega
    exact (find_chunk_boundary_bounds _ hne).1

theorem dedupChunkSpan_le_rem (mode cs : Nat) (data : List Nat) (offset : Nat) :
    dedupChunkSpan mode cs data offset ≤ data.length - offset := by
  unfold dedupChunkSpan
  split
  · omega
  · rcases List.eq_nil_or_concat ((data.drop offset).take
        (min cs (data.length - offset))) with hnil | hcon
    · rw [hnil]
      unfold find_chunk_boundary
      simp
    · have hne : (data.drop offset).take (min cs (data.length - offset)) ≠ [] := by
        obtain ⟨xs, x, hx⟩ := hcon
        rw [hx]; simp
      have := (find_chunk_boundary_bounds _ hne).2
      simp only [List.length_take, List.length_drop] at this
      omega

theorem dedupFirstPass_wf (hashFn : List Nat → List Nat) (mode cs : Nat)
    (data : List Nat) (hcs : 1 ≤ cs) :
    ∀ (fuel offset : Nat) (table : List ChunkHash),
      ∀ r ∈ (dedupFirstPass hashFn mode cs data fuel offset table).1,
        1 ≤ r.size ∧ r.offset + r.size ≤ data.length := by
  intro fuel
  induction fuel with
  | zero => intro offset table r hr; simp [dedupFirstPass] at hr
  | succ f ih =>
      intro offset table r hr
      unfold dedupFirstPass at hr
      by_cases hoff : data.length ≤ offset
      · rw [if_pos hoff] at hr
        simp at hr
      · rw [if_neg hoff] at hr
        simp only [List.mem_cons] at hr
        rcases hr with rfl | hr
        · refine ⟨dedupChunkSpan_pos mode cs data offset hcs (by omega), ?_⟩
          have := dedupChunkSpan_le_rem mode cs data offset
          simp only
          omega
        · exact ih _ _ r hr

theorem addChunkGo_offsets (P : Nat → Prop) (h : List Nat) (sz : Nat) :
    ∀ (table t2 : List ChunkHash), (∀ e ∈ table, P e.offset) →
      addChunkGo h sz table = some t2 → ∀ e ∈ t2, P e.offset := by
  intro table
  induction table with
  | nil => intro t2 _ habs; simp [addChunkGo] at habs
  | cons e0 rest ih =>
      intro t2 hP hadd e2 he2
      unfold addChunkGo at hadd
      split at hadd
      · simp only [Option.some.injEq] at hadd
        subst hadd
        rcases List.mem_cons.mp he2 with rfl | hmem
        · exact hP e0 (List.mem_cons_self e0 rest)
        · exact hP e2 (List.mem_cons_of_mem e0 hmem)
      · cases hrec : addChunkGo h sz rest with
        | none => rw [hrec] at hadd; exact absurd hadd (by simp)
        | some rest2 =>
            rw [hrec] at hadd
            simp only [Option.some.injEq] at hadd
            subst hadd
            rcases List.mem_cons.mp he2 with rfl | hmem
            · exact hP e2 (List.mem_cons_self e2 rest)
            · exact ih rest2 (fun e3 h3 => hP e3 (List.mem_cons_of_mem e0 h3))
                hrec e2 hmem

theorem add_chunk_offsets (P : Nat → Prop) (hashFn : List Nat → List Nat)
    (table : List ChunkHash) (chunk : List Nat) (offset : Nat)
    (hP : ∀ e ∈ table, P e.offset) (hPo : P offset) :
    ∀ e ∈ (add_chunk hashFn table chunk offset).2, P e.offset := by
  unfold add_chunk
  cases hrec : addChunkGo (hashFn chunk) chunk.length table with
  | some t2 =>
      intro e he
      exact addChunkGo_offsets P _ _ table t2 hP hrec e he
  | none =>
      intro e he
      rcases List.mem_cons.mp he with rfl | hmem
      · exact hPo
      · exact hP e hmem

theorem dedupFirstPass_table_offsets (hashFn : List Nat → List Nat)
    (mode cs : Nat) (data : List Nat) (B : Nat) (hB : data.length ≤ B) :
    ∀ (fuel offset : Nat) (table : List ChunkHash),
      (∀ e ∈ table, e.offset < B) →
      ∀ e ∈ (dedupFirstPass hashFn mode cs data fuel offset table).2,
        e.offset < B := by
  intro fuel
  induction fuel with
  | zero =>
      intro offset table hP e he
      exact hP e he
  | succ f ih =>
      intro offset table hP e he
      unfold dedupFirstPass at he
      by_cases hoff : data.length ≤ offset
      · rw [if_pos hoff] at he
        exact hP e he
      · rw [if_neg hoff] at he
        refine ih _ _ ?_ e he
        refine add_chunk_offsets (fun o => o < B) hashFn table _ offset hP ?_
        omega

theorem dedupFirstPass_count (hashFn : List Nat → List Nat) (mode cs : Nat)
    (data : List Nat) (hcs : 1 ≤ cs) :
    ∀ (fuel offset : Nat) (table : List ChunkHash),
      (dedupFirstPass hashFn mode cs data fuel offset table).1.length ≤
        data.length - offset := by
  intro fuel
  induction fuel with
  | zero => intro offset table; simp [dedupFirstPass]
  | succ f ih =>
      intro offset table
      unfold dedupFirstPass
      by_cases hoff : data.length ≤ offset
      · rw [if_pos hoff]; simp
      · rw [if_neg hoff]
        simp only [List.length_cons]
        have h1 := ih (offset + dedupChunkSpan mode cs data offset)
          (add_chunk hashFn table
            ((data.drop offset).take (dedupChunkSpan mode cs data offset))
            offset).2
        have h2 := dedupChunkSpan_pos mode cs data offset hcs (by omega)
        have h3 := dedupChunkSpan_le_rem mode cs data offset
        omega

theorem dedupLookupGo_lt (B : Nat) (h : List Nat) (sz co : Nat) :
    ∀ (table : List ChunkHash), (∀ e ∈ table, e.offset < B) →
      ∀ acc, acc < B → dedupLookupGo h sz co table acc < B := by
  intro table
  induction table with
  | nil => intro _ acc hacc; exact hacc
  | cons e rest ih =>
      intro hP acc hacc
      unfold dedupLookupGo
      have hPe := hP e (List.mem_cons_self e rest)
      have hPrest := fun e2 h2 => hP e2 (List.mem_cons_of_mem e h2)
      split
      · split
        · exact hPe
        · exact ih hPrest e.offset hPe
      · exact ih hPrest acc hacc

theorem dedupParseRecords_spec (hashFn : List Nat → List Nat)
    (data : List Nat) (table : List ChunkHash)
    (hB : ∀ e ∈ table, e.offset < 256 ^ 8) :
    ∀ recs : List DedupIndexRecord,
      (∀ r ∈ recs, 1 ≤ r.size ∧ r.offset + r.size ≤ data.length ∧
        r.size < 256 ^ 8) →
      dedupParseRecords recs.length (dedupSecondPass hashFn data table recs) =
        some (recs.map (dedupRecordDescr hashFn data table)) := by
  intro recs
  induction recs with
  | nil => intro _; rfl
  | cons r rs ih =>
      intro hwf
      obtain ⟨hr1, hr2, hr3⟩ := hwf r (List.mem_cons_self r rs)
      have hwfrest := fun r2 h2 => hwf r2 (List.mem_cons_of_mem r h2)
      have hl8 : ∀ v : Nat, (leBytes 8 v).length = 8 := fun v => leBytes_length 8 v
      simp only [List.length_cons, dedupSecondPass]
      unfold dedupParseRecords
      rw [List.append_assoc]
      rw [if_neg (by
        rw [List.length_append, hl8]
        omega)]
      rw [List.drop_left' (hl8 r.size), List.take_left' (hl8 r.size),
        leDecode_leBytes 8 r.size hr3]
      cases hdup : r.isDup with
      | true =>
          simp only [hdup, if_true, List.cons_append]
          have hlook : dedup_lookup_offset hashFn data table r < 256 ^ 8 := by
            unfold dedup_lookup_offset
            exact dedupLookupGo_lt (256 ^ 8) _ _ _ table hB 0 (by norm_num)
          rw [if_neg (by rw [List.length_append, hl8]; omega),
            List.take_left' (hl8 _), List.drop_left' (hl8 _),
            leDecode_leBytes 8 _ hlook,
            ih hwfrest]
          simp [dedupRecordDescr, hdup]
      | false =>
          simp only [hdup, Bool.false_eq_true, if_false, List.cons_append]
          have hslice : ((data.drop r.offset).take r.size).length = r.size := by
            simp only [List.length_take, List.length_drop]
            omega
          rw [if_neg (show ¬(0 : Nat) = 1 by omega),
            if_pos trivial,
            if_neg (by rw [List.length_append, hslice]; omega),
            List.take_left' hslice, List.drop_left' hslice,
            ih hwfrest]
          simp [dedupRecordDescr, hdup]

/-- C8 (amended).  The deduplication encoder emits exactly the layout: the
literal bytes `"DEDUP"`, the original file size as a u64, the total chunk
count as a u64, and then for each chunk an 8-byte (`size_t` on LP64)
`chunk_size` followed by a one-byte `is_ref` flag, followed by a u64
`original_offset` when `is_ref = 1` or by the raw chunk bytes when
`is_ref = 0`: parsing that grammar back recovers the original size and the
per-chunk records of the first pass exactly. -/
theorem dedup_output_layout (hashFn : List Nat → List Nat) (mode cs : Nat)
    (data : List Nat) (hcs : 1 ≤ cs) (hlen : data.length < 256 ^ 8) :
    dedupParse (deduplicate_file hashFn mode cs data) =
      some (data.length,
        (dedupFirstPass hashFn mode cs data data.length 0 []).1.map
          (dedupRecordDescr hashFn data
            (dedupFirstPass hashFn mode cs data data.length 0 []).2)) := by
  have hmagic : dedupMagic.length = 5 := rfl
  have hl8 : ∀ v : Nat, (leBytes 8 v).length = 8 := fun v => leBytes_length 8 v
  have hcount : (dedupFirstPass hashFn mode cs data data.length 0 []).1.length <
      256 ^ 8 := by
    have := dedupFirstPass_count hashFn mode cs data hcs data.length 0 []
    omega
  unfold dedupParse deduplicate_file
  rw [List.append_assoc, List.append_assoc]
  have hdrop5 : (dedupMagic ++ (leBytes 8 data.length ++
      (leBytes 8 (dedupFirstPass hashFn mode cs data data.length 0 []).1.length ++
        dedupSecondPass hashFn data
          (dedupFirstPass hashFn mode cs data data.length 0 []).2
          (dedupFirstPass hashFn mode cs data data.length 0 []).1))).drop 5 =
      leBytes 8 data.length ++
      (leBytes 8 (dedupFirstPass hashFn mode cs data data.length 0 []).1.length ++
        dedupSecondPass hashFn data
          (dedupFirstPass hashFn mode cs data data.length 0 []).2
          (dedupFirstPass hashFn mode cs data data.length 0 []).1) :=
    List.drop_left' hmagic
  rw [if_pos (List.take_left' hmagic)]
  rw [show (21 : Nat) = 13 + 8 by norm_num, ← List.drop_drop,
    show (13 : Nat) = 5 + 8 by norm_num, ← List.drop_drop]
  rw [hdrop5, List.drop_left' (hl8 data.length),
    List.take_left' (hl8 data.length),
    List.drop_left' (hl8 _), List.take_left' (hl8 _),
    leDecode_leBytes 8 _ hcount, leDecode_leBytes 8 _ hlen]
  rw [dedupParseRecords_spec hashFn data
    (dedupFirstPass hashFn mode cs data data.length 0 []).2
    (dedupFirstPass_table_offsets hashFn mode cs data (256 ^ 8) (by omega)
      data.length 0 [] (by simp))
    (dedupFirstPass hashFn mode cs data data.length 0 []).1
    (by
      intro r hr
      have hwf := dedupFirstPass_wf hashFn mode cs data hcs data.length 0 [] r hr
      exact ⟨hwf.1, hwf.2, by omega⟩)]

/-- Witness for `dedup_output_layout`: the 3-byte input parses back to one
literal record. -/
theorem dedup_output_layout_witness :
    dedupParse (deduplicate_file czeroHash 0 4096 [10, 20, 30]) =
      some (3, [⟨3, DedupPayload.bytes [10, 20, 30]⟩]) :=
  (dedup_output_layout czeroHash 0 4096 [10, 20, 30] (by norm_num)
    (by decide)).trans (by decide)

end FileCompression
